import Mathlib

set_option maxHeartbeats 1000000

/-!
Shallow embedding of the tree arena (`TreePool`), node records (`TreeNode`)
and the reference-counted handle type `TreeReference` of `tree_reference.h`.

The handle operations are translated from `src/tree_reference.h`.  The pool
and node primitives (`move`, `retain`, `release`, `deepCopy`, `next`,
`nextSibling`, `parentTree`, `createTreeNode`) are declared by that header
but implemented elsewhere in the repository; they are modelled from the
specification: the arena is a list of node records in depth-first pre-order
(one list entry per record, the record's byte size being irrelevant to the
claims), a node's subtree is the contiguous block of records starting at the
node and covering its `numberOfChildren` child subtrees, and `move` is the
single structural primitive relocating such a block.
-/

/-- Node record header: identifier, retain count, child count, type tag and
the allocation-failure marker.  Modelled from the spec: §3 Data Model (the
byte size and physical position are represented by the record's place in the
pool list). -/
structure TreeNode where
  identifier : Int
  referenceCounter : Int
  numberOfChildren : Int
  treeTag : Nat
  isAllocationFailure : Bool
deriving DecidableEq, Repr

/-- Placeholder record used as the default value of out-of-range reads. -/
def defaultTreeNode : TreeNode :=
  { identifier := -1, referenceCounter := 0, numberOfChildren := 0,
    treeTag := 0, isAllocationFailure := false }

instance : Inhabited TreeNode := ⟨defaultTreeNode⟩

/-- Number of pool records occupied by the first `k` complete subtrees at the
head of `l`, in the depth-first layout: a record is immediately followed by
its children's subtrees.  Modelled from the spec: §3 Arena layout and
glossary (depth-first layout). -/
def subtreesLen : Nat → List TreeNode → Nat
  | 0, _ => 0
  | _ + 1, [] => 0
  | k + 1, n :: rest => 1 + subtreesLen (k + n.numberOfChildren.toNat) rest

/-- Record length of the subtree rooted at the head of `l` (`0` on the empty
list): the span `move` relocates and `nextSibling` skips. -/
def treeLen (l : List TreeNode) : Nat :=
  subtreesLen 1 l

/-- The record stored at position `idx` of the pool (default on overflow). -/
def getRec (l : List TreeNode) (idx : Nat) : TreeNode :=
  l.getD idx defaultTreeNode

/-- Position of the record carrying identifier `i`, scanning from the front.
Modelled from the spec: §4.1 identifier-to-record lookup. -/
def indexOfId (l : List TreeNode) (i : Int) : Option Nat :=
  match l with
  | [] => none
  | n :: rest =>
    if n.identifier = i then some 0 else (indexOfId rest i).map (· + 1)

/-- The record carrying identifier `i`, or `none` — the model of
`TreePool::node(id)` returning a pointer or `nullptr`. -/
def findRecord (l : List TreeNode) (i : Int) : Option TreeNode :=
  match l with
  | [] => none
  | n :: rest => if n.identifier = i then some n else findRecord rest i

/-- Retain count of the record carrying identifier `i`, when it exists. -/
def retainCountOf (l : List TreeNode) (i : Int) : Option Int :=
  (findRecord l i).map TreeNode.referenceCounter

/-- The identifiers of the records of a pool, in layout order. -/
def poolIds (l : List TreeNode) : List Int :=
  l.map TreeNode.identifier

/-- Rewrite the record carrying identifier `i` with `f` (identifiers are
unique in a well-formed pool, so this touches one record). -/
def modifyById (f : TreeNode → TreeNode) (i : Int) (l : List TreeNode) :
    List TreeNode :=
  l.map fun n => if n.identifier = i then f n else n

/-- Rewrite the record at position `idx` with `f` (a write through a raw
node pointer, which addresses a position rather than an identifier). -/
def modifyAt (l : List TreeNode) (idx : Nat) (f : TreeNode → TreeNode) :
    List TreeNode :=
  l.set idx (f (getRec l idx))

/-- `TreeNode::retain`.  Modelled from the spec: one more owner. -/
def retain (l : List TreeNode) (i : Int) : List TreeNode :=
  modifyById (fun n => { n with referenceCounter := n.referenceCounter + 1 }) i l

/-- `TreeNode::incrementNumberOfChildren`.  Modelled from the spec. -/
def incrementNumberOfChildren (l : List TreeNode) (i : Int) : List TreeNode :=
  modifyById (fun n => { n with numberOfChildren := n.numberOfChildren + 1 }) i l

/-- `TreeNode::decrementNumberOfChildren`.  Modelled from the spec. -/
def decrementNumberOfChildren (l : List TreeNode) (i : Int) : List TreeNode :=
  modifyById (fun n => { n with numberOfChildren := n.numberOfChildren - 1 }) i l

/-- Remove the whole subtree block rooted at position `idx`: the space
reclamation of a destroyed node (its descendants' records lie inside the
block and are reclaimed with it).  Modelled from the spec: §3 lifecycle. -/
def removeBlock (l : List TreeNode) (idx : Nat) : List TreeNode :=
  l.take idx ++ l.drop (idx + treeLen (l.drop idx))

/-- `TreeNode::release`.  Modelled from the spec: §3 lifecycle — drop one
owner; a node whose retain count reaches zero is destroyed, descendants
first, and its space reclaimed. -/
def release (l : List TreeNode) (i : Int) : List TreeNode :=
  let l1 := modifyById
    (fun n => { n with referenceCounter := n.referenceCounter - 1 }) i l
  match indexOfId l1 i with
  | none => l1
  | some idx =>
    if (getRec l1 idx).referenceCounter = 0 then removeBlock l1 idx else l1

/-- `TreeNode::releaseChildrenAndDestroy`.  Modelled from the spec: §4.3
step 3 (Reclaim) — recursively release every descendant, then destroy the
node record, freeing its space. -/
def releaseChildrenAndDestroy (l : List TreeNode) (i : Int) : List TreeNode :=
  match indexOfId l i with
  | none => l
  | some idx => removeBlock l idx

/-- `TreePool::move`: relocate the contiguous subtree block rooted at
position `src` so that it immediately precedes the record at position `dst`
(`dst = l.length` being the trash position at the end of the pool), leaving
every record's contents untouched.  Modelled from the spec: §4.1 — the only
primitive that changes structure. -/
def move (l : List TreeNode) (src dst : Nat) : List TreeNode :=
  let e := treeLen (l.drop src)
  if src + e ≤ l.length then
    if dst ≤ src then
      l.take dst ++ (l.drop src).take e ++ (l.drop dst).take (src - dst)
        ++ l.drop (src + e)
    else if src + e ≤ dst ∧ dst ≤ l.length then
      l.take src ++ (l.drop (src + e)).take (dst - (src + e))
        ++ (l.drop src).take e ++ l.drop dst
    else l
  else l

/-- Walk `i` sibling boundaries forward from position `pos`:
`pos` advanced by `i` applications of `nextSibling`.  Modelled from the
spec: §4.2 (`next()` of a node is the position immediately after its header,
`nextSibling()` skips its whole subtree). -/
def walkSiblings (l : List TreeNode) (pos : Nat) : Nat → Nat
  | 0 => pos
  | i + 1 => walkSiblings l (pos + treeLen (l.drop pos)) i

/-- Auxiliary downward scan for `parentIndex`: try `j, j-1, ..., 0` and
return the first (hence nearest) position whose subtree block strictly
contains `idx`. -/
def parentIndexGo (l : List TreeNode) (idx : Nat) : Nat → Option Nat
  | 0 => none
  | j + 1 =>
    if idx < j + treeLen (l.drop j) ∧ j < idx then some j
    else parentIndexGo l idx j

/-- `TreeNode::parentTree`, as a position: the nearest enclosing record in
the depth-first layout.  Modelled from the spec: §9 — the back-reference is
recomputed by walking backward through the layout. -/
def parentIndex (l : List TreeNode) (idx : Nat) : Option Nat :=
  parentIndexGo l idx idx

/-- Count sibling hops from position `pos` to position `idx` (fuel-bounded
walk along sibling boundaries). -/
def childOrdinal (l : List TreeNode) (pos idx : Nat) : Nat → Nat
  | 0 => 0
  | fuel + 1 =>
    if pos < idx then 1 + childOrdinal l (pos + treeLen (l.drop pos)) idx fuel
    else 0

/-- `TreeNode::indexInParent`: the node's child index under its parent, `-1`
when it has none.  Modelled from the spec: §4.3 step 1. -/
def indexInParent (l : List TreeNode) (idx : Nat) : Int :=
  match parentIndex l idx with
  | none => -1
  | some p => (childOrdinal l (p + 1) idx idx : Int)

/-- The arena: the record list in depth-first order, the next fresh
identifier handed out by allocation, and the identifier of the process-wide
canonical allocation-failure sentinel.  Modelled from the spec: §2/§4.1. -/
structure TreePool where
  nodes : List TreeNode
  nextId : Nat
  allocationFailureNodeId : Int
deriving DecidableEq, Repr

/-- The static minimal-size allocation-failure prototype
(`failedAllocationStaticNode`), living outside the pool.  Modelled from the
spec: §6 — each concrete type supplies a canonical failure-sentinel
prototype of guaranteed-minimal size. -/
def staticAllocationFailureNode : TreeNode :=
  { identifier := -1, referenceCounter := 0, numberOfChildren := 0,
    treeTag := 0, isAllocationFailure := true }

/-! ## Handle operations, translated from `src/tree_reference.h`

A `TreeReference` holds one field, `m_identifier`; a handle is therefore
modelled as an `Int` alongside the pool it refers into.  Operations that the
source writes through a raw `TreeNode *` captured earlier are modelled by
the corresponding *position*, since a raw pointer addresses a place in the
buffer, not an identifier; operations written through `node()` re-resolve
the identifier at that point, as the source does.  Local handle temporaries
(`p`, `oldChild`, pass-by-value parameters) retain on construction and
release on scope exit; these paired retain/release brackets cancel and are
omitted from the models, which keep every unpaired retain and release the
bodies perform. -/

namespace TreeReference

/-- `setIdentifierAndRetain(newId)` (`tree_reference.h:205`): rebind the
handle and retain the node it now refers to. -/
def setIdentifierAndRetain (pl : TreePool) (newId : Int) : Int × TreePool :=
  (newId, { pl with nodes := retain pl.nodes newId })

/-- `setTo(tr)` (`tree_reference.h:35`): delegate to
`setIdentifierAndRetain(tr.identifier())`. -/
def setTo (pl : TreePool) (trId : Int) : Int × TreePool :=
  setIdentifierAndRetain pl trId

/-- Copy constructor (`tree_reference.h:22`): `setTo(tr)`. -/
def copyConstructor (pl : TreePool) (trId : Int) : Int × TreePool :=
  setTo pl trId

/-- Move constructor (`tree_reference.h:23`): also `setTo(tr)` — the source
gives the move constructor the same body as the copy constructor. -/
def moveConstructor (pl : TreePool) (trId : Int) : Int × TreePool :=
  setTo pl trId

/-- Copy/move assignment (`tree_reference.h:24` and `:28`): `setTo(tr)`;
the assigned-to handle's previous identifier is not released. -/
def assign (pl : TreePool) (selfId trId : Int) : Int × TreePool :=
  setTo pl trId

/-- Destructor (`tree_reference.h:49`): release the node if the handle is
bound (`m_identifier >= 0`). -/
def destructor (pl : TreePool) (selfId : Int) : TreePool :=
  if 0 ≤ selfId then { pl with nodes := release pl.nodes selfId } else pl

/-- `isDefined()` (`tree_reference.h:57`):
`m_identifier >= 0 && node() != nullptr`. -/
def isDefined (pl : TreePool) (selfId : Int) : Bool :=
  0 ≤ selfId && (findRecord pl.nodes selfId).isSome

/-- `isAllocationFailure()` (`tree_reference.h:58`):
`node()->isAllocationFailure()` (false when the record is absent, where the
source would dereference a null pointer). -/
def isAllocationFailure (l : List TreeNode) (selfId : Int) : Bool :=
  match findRecord l selfId with
  | none => false
  | some n => n.isAllocationFailure

/-- `numberOfChildren()` (`tree_reference.h:81`). -/
def numberOfChildren (l : List TreeNode) (selfId : Int) : Int :=
  match findRecord l selfId with
  | none => 0
  | some n => n.numberOfChildren

/-- Default construction (`tree_reference.h:193`): allocate a new node of
the handle's static type and wrap its identifier (without an extra retain —
the fresh record starts with the handle as its one owner).
`TreePool::createTreeNode` is modelled from the spec: §3 lifecycle — a node
is born when the arena allocates space for a requested type, and the fresh
handle contributes exactly one retain. -/
def defaultConstructor (pl : TreePool) (tag : Nat) : Int × TreePool :=
  let fresh : TreeNode :=
    { identifier := (pl.nextId : Int), referenceCounter := 1,
      numberOfChildren := 0, treeTag := tag, isAllocationFailure := false }
  ((pl.nextId : Int),
    { pl with nodes := pl.nodes ++ [fresh], nextId := pl.nextId + 1 })

/-- Relabel a copied block with consecutive fresh identifiers.  Modelled
from the spec: §4.1 `deepCopy` — fresh identifiers for every copied node;
each copy starts with its parent edge as single owner. -/
def relabelFrom (base : Nat) : List TreeNode → List TreeNode
  | [] => []
  | n :: rest =>
    { n with identifier := (base : Int), referenceCounter := 1 }
      :: relabelFrom (base + 1) rest

/-- `TreePool::deepCopy` of the subtree block rooted at position `srcIdx`:
duplicate the block into newly allocated space (the end of the pool) under
fresh identifiers, the root copy starting unowned until wrapped.  Modelled
from the spec: §4.1. -/
def deepCopy (pl : TreePool) (srcIdx : Nat) : Int × TreePool :=
  let block := (pl.nodes.drop srcIdx).take (treeLen (pl.nodes.drop srcIdx))
  let fresh :=
    match block with
    | [] => []
    | r :: rest =>
      { r with identifier := (pl.nextId : Int), referenceCounter := 0 }
        :: relabelFrom (pl.nextId + 1) rest
  ((pl.nextId : Int),
    { pl with nodes := pl.nodes ++ fresh, nextId := pl.nextId + block.length })

/-- `clone()` (`tree_reference.h:39`): a failure sentinel clones to a fresh
handle on the canonical sentinel (no byte copy); anything else is
deep-copied and wrapped.  `TreeNode::allocationFailureNodeIdentifier` is
modelled from the spec: §4.2 — the identifier of the process-wide canonical
sentinel. -/
def clone (pl : TreePool) (selfId : Int) : Int × TreePool :=
  match indexOfId pl.nodes selfId with
  | none => (-1, pl)
  | some selfIdx =>
    if (getRec pl.nodes selfIdx).isAllocationFailure then
      match indexOfId pl.nodes pl.allocationFailureNodeId with
      | none => (-1, pl)
      | some _ => setIdentifierAndRetain pl pl.allocationFailureNodeId
    else
      let (copyId, pl1) := deepCopy pl selfIdx
      setIdentifierAndRetain pl1 copyId

/-- `treeChildAtIndex(i)` (`tree_reference.h:89`): wrap
`node()->childTreeAtIndex(i)` in a handle (whose construction retains).
`TreeNode::childTreeAtIndex` is modelled from the spec: walk `i` sibling
boundaries from the first-child position. -/
def treeChildAtIndex (pl : TreePool) (selfId : Int) (i : Nat) :
    Int × TreePool :=
  match indexOfId pl.nodes selfId with
  | none => (-1, pl)
  | some selfIdx =>
    let childIdx := walkSiblings pl.nodes (selfIdx + 1) i
    setIdentifierAndRetain pl (getRec pl.nodes childIdx).identifier

/-- `addChildAtIndex(t, index)` (`tree_reference.h:99`): no-op on a failure
sentinel; otherwise retain `t`, walk `index` sibling boundaries from the
first-child position, move `t`'s subtree there, and count one more child. -/
def addChildAtIndex (pl : TreePool) (selfId tId : Int) (index : Int) :
    TreePool :=
  match indexOfId pl.nodes selfId with
  | none => pl
  | some selfIdx =>
    if (getRec pl.nodes selfIdx).isAllocationFailure then pl
    else
      let l1 := retain pl.nodes tId
      -- `retain` rewrites one record in place, so `selfIdx` still addresses
      -- `self` and sibling walking sees the same layout.
      let newChildPosition := walkSiblings l1 (selfIdx + 1) index.toNat
      let l2 :=
        match indexOfId l1 tId with
        | none => l1
        | some tIdx => move l1 tIdx newChildPosition
      { pl with nodes := incrementNumberOfChildren l2 selfId }

/-- `removeChild(t)` (`tree_reference.h:114`): move `t` to the trash end,
release it, and count one child fewer — with no sentinel guard and no
bounds assertion. -/
def removeChild (pl : TreePool) (selfId tId : Int) : TreePool :=
  match indexOfId pl.nodes tId with
  | none => pl
  | some tIdx =>
    let l1 := move pl.nodes tIdx pl.nodes.length
    let l2 := release l1 tId
    { pl with nodes := decrementNumberOfChildren l2 selfId }

/-- `replaceWithAllocationFailure()` (`tree_reference.h:144`): capture the
parent, child index and retain count; detach to the trash end; reclaim;
substitute a sentinel renamed to the original identifier; restore the
retain count; reattach under the parent when there is one. -/
def replaceWithAllocationFailure (pl : TreePool) (selfId : Int) : TreePool :=
  match indexOfId pl.nodes selfId with
  | none => pl
  | some selfIdx =>
    let pId? := (parentIndex pl.nodes selfIdx).map
      fun j => (getRec pl.nodes j).identifier
    let indexInParentNode := indexInParent pl.nodes selfIdx
    let currentRetainCount := (getRec pl.nodes selfIdx).referenceCounter
    -- move the node to the end of the pool, decrease the parent's count
    let l1 := move pl.nodes selfIdx pl.nodes.length
    let l2 :=
      match pId? with
      | none => l1
      | some pid => decrementNumberOfChildren l1 pid
    -- release all children and delete the node in the pool
    let l3 := releaseChildrenAndDestroy l2 selfId
    -- deepCopy the static sentinel into the freed trailing space (one fresh
    -- identifier), then rename it to the previous node's identifier
    let newIdx := l3.length
    let l4 := l3 ++ [{ staticAllocationFailureNode with
      identifier := (pl.nextId : Int) }]
    let l5 := modifyAt l4 newIdx fun n => { n with identifier := selfId }
    match pId? with
    | some pid =>
      let l6 := modifyAt l5 newIdx fun n =>
        { n with referenceCounter := currentRetainCount - 1 }
      addChildAtIndex { pl with nodes := l6, nextId := pl.nextId + 1 }
        pid selfId indexInParentNode
    | none =>
      let l6 := modifyAt l5 newIdx fun n =>
        { n with referenceCounter := currentRetainCount }
      { pl with nodes := l6, nextId := pl.nextId + 1 }

/-- `replaceChildAtIndex(oldChildIndex, newChild)` (`tree_reference.h:127`):
a failure `newChild` degrades the whole call to
`replaceWithAllocationFailure()`; otherwise detach `newChild` from its
parent's count, move it into the old child's position, retain it, and trash
and release the old child. -/
def replaceChildAtIndex (pl : TreePool) (selfId : Int) (oldChildIndex : Int)
    (newChildId : Int) : TreePool :=
  if isAllocationFailure pl.nodes newChildId then
    replaceWithAllocationFailure pl selfId
  else
    match indexOfId pl.nodes selfId with
    | none => pl
    | some selfIdx =>
      let l0 := pl.nodes
      -- p = newChild.parent(); if (p.isDefined()) p.decrementNumberOfChildren()
      let l1 :=
        match indexOfId l0 newChildId with
        | none => l0
        | some ncIdx =>
          match parentIndex l0 ncIdx with
          | none => l0
          | some pIdx =>
            decrementNumberOfChildren l0 (getRec l0 pIdx).identifier
      -- oldChild = treeChildAtIndex(oldChildIndex)
      let oldIdx := walkSiblings l1 (selfIdx + 1) oldChildIndex.toNat
      let oldId := (getRec l1 oldIdx).identifier
      -- move(newChild.node(), oldChild.node()->next())
      let l2 :=
        match indexOfId l1 newChildId with
        | none => l1
        | some ncIdx => move l1 ncIdx (oldIdx + 1)
      -- newChild.node()->retain()
      let l3 := retain l2 newChildId
      -- move(oldChild.node(), pool->last()); oldChild.node()->release()
      let l4 :=
        match indexOfId l3 oldId with
        | none => l3
        | some oIdx => move l3 oIdx l3.length
      { pl with nodes := release l4 oldId }

/-- `swapChildren(i, j)` (`tree_reference.h:177`): for `i ≠ j`, move the
lower-indexed child's subtree to just after the higher-indexed child's
`next()` position (immediately after its header), then move the
higher-indexed child's subtree to the lower child's vacated start address. -/
def swapChildren (pl : TreePool) (selfId : Int) (i j : Int) : TreePool :=
  match indexOfId pl.nodes selfId with
  | none => pl
  | some selfIdx =>
    if i = j then pl
    else
      let firstChildIndex := min i j
      let secondChildIndex := max i j
      let firstIdx := walkSiblings pl.nodes (selfIdx + 1) firstChildIndex.toNat
      let secondIdx := walkSiblings pl.nodes (selfIdx + 1) secondChildIndex.toNat
      let secondId := (getRec pl.nodes secondIdx).identifier
      -- move(firstChildNode, secondChild.node()->next())
      let l1 := move pl.nodes firstIdx (secondIdx + 1)
      -- move(secondChild.node(), firstChildNode): the identifier is
      -- re-resolved, the destination is the raw address captured above
      let l2 :=
        match indexOfId l1 secondId with
        | none => l1
        | some idx2 => move l1 idx2 firstIdx
      { pl with nodes := l2 }

end TreeReference

/-! ## Structured trees

`STree` is the abstract shape of one well-formed subtree; `STree.flat`
serialises it into the depth-first record block the pool stores.  The
well-formedness predicate ties each record's `numberOfChildren` to the
number of child subtrees that follow it, which is what the layout-walking
primitives rely on. -/

mutual

/-- One abstract subtree: a root record together with child subtrees. -/
inductive STree where
  | mk (rec : TreeNode) (children : List STree)

end

/-- The root record of a structured tree. -/
def STree.rootRec : STree → TreeNode
  | .mk n _ => n

mutual

/-- Depth-first serialisation of one subtree. -/
def STree.flat : STree → List TreeNode
  | .mk n cs => n :: forestFlat cs

/-- Depth-first serialisation of a forest. -/
def forestFlat : List STree → List TreeNode
  | [] => []
  | t :: ts => STree.flat t ++ forestFlat ts

end

mutual

/-- Well-formedness: each record's child count matches its subtree list. -/
def STree.wfb : STree → Bool
  | .mk n cs => n.numberOfChildren == (cs.length : Int) && forestWfb cs

/-- Well-formedness of every tree of a forest. -/
def forestWfb : List STree → Bool
  | [] => true
  | t :: ts => STree.wfb t && forestWfb ts

end

theorem STree.flat_ne_nil (t : STree) : STree.flat t ≠ [] := by
  cases t with
  | mk n cs => simp [STree.flat]

theorem forestFlat_append (a b : List STree) :
    forestFlat (a ++ b) = forestFlat a ++ forestFlat b := by
  induction a with
  | nil => simp [forestFlat]
  | cons t ts ih => simp [forestFlat, ih]

theorem forestWfb_append (a b : List STree) :
    forestWfb (a ++ b) = (forestWfb a && forestWfb b) := by
  induction a with
  | nil => simp [forestWfb]
  | cons t ts ih => simp [forestWfb, ih, Bool.and_assoc]

/-- A well-formed forest of `k` trees heads `k` complete subtrees: the
pending-counter scan consumes exactly its serialisation before continuing
with the `j` remaining pending subtrees in `r`. -/
theorem subtreesLen_forestFlat (ts : List STree) (h : forestWfb ts = true)
    (j : Nat) (r : List TreeNode) :
    subtreesLen (ts.length + j) (forestFlat ts ++ r)
      = (forestFlat ts).length + subtreesLen j r := by
  match ts with
  | [] => simp [forestFlat]
  | .mk n cs :: rest =>
    have hwf : STree.wfb (.mk n cs) = true ∧ forestWfb rest = true := by
      simpa [forestWfb, Bool.and_eq_true] using h
    have hcs : forestWfb cs = true ∧ n.numberOfChildren = (cs.length : Int) := by
      have := hwf.1
      simp only [STree.wfb, Bool.and_eq_true, beq_iff_eq] at this
      exact ⟨this.2, this.1⟩
    have htn : n.numberOfChildren.toNat = cs.length := by
      rw [hcs.2]; exact Int.toNat_natCast cs.length
    have hchild := subtreesLen_forestFlat cs hcs.1 (rest.length + j)
      (forestFlat rest ++ r)
    have hrest := subtreesLen_forestFlat rest hwf.2 j r
    simp only [forestFlat, STree.flat, List.cons_append, List.append_assoc,
      List.length_cons, List.length_append]
    rw [show rest.length + 1 + j = (rest.length + j) + 1 by omega, subtreesLen,
      htn, show rest.length + j + cs.length = cs.length + (rest.length + j)
        by omega, hchild, hrest]
    omega
termination_by sizeOf ts
decreasing_by
  · simp; omega
  · simp

/-- Special case: a well-formed forest heading the list, nothing pending
afterwards. -/
theorem subtreesLen_forestFlat_zero (ts : List STree)
    (h : forestWfb ts = true) (r : List TreeNode) :
    subtreesLen ts.length (forestFlat ts ++ r) = (forestFlat ts).length := by
  have h2 := subtreesLen_forestFlat ts h 0 r
  simpa [subtreesLen] using h2

/-! ## Layout lemmas -/

theorem treeLen_flat_append (t : STree) (h : STree.wfb t = true)
    (r : List TreeNode) :
    treeLen (STree.flat t ++ r) = (STree.flat t).length := by
  have hf : forestWfb [t] = true := by simp [forestWfb, h]
  have h2 := subtreesLen_forestFlat_zero [t] hf r
  simpa [treeLen, forestFlat] using h2

theorem treeLen_flat (t : STree) (h : STree.wfb t = true) :
    treeLen (STree.flat t) = (STree.flat t).length := by
  simpa using treeLen_flat_append t h []

theorem treeLen_cons_pos (n : TreeNode) (l : List TreeNode) :
    0 < treeLen (n :: l) := by
  simp [treeLen, subtreesLen]

theorem subtreesLen_map (g : TreeNode → TreeNode)
    (hg : ∀ n, (g n).numberOfChildren = n.numberOfChildren)
    (l : List TreeNode) : ∀ (k : Nat),
    subtreesLen k (l.map g) = subtreesLen k l := by
  induction l with
  | nil => intro k; cases k <;> simp [subtreesLen]
  | cons n rest ih =>
    intro k
    cases k with
    | zero => simp [subtreesLen]
    | succ k => simp only [List.map_cons, subtreesLen, hg, ih]

theorem treeLen_map (g : TreeNode → TreeNode)
    (hg : ∀ n, (g n).numberOfChildren = n.numberOfChildren)
    (l : List TreeNode) : treeLen (l.map g) = treeLen l :=
  subtreesLen_map g hg l 1

theorem walkSiblings_map (g : TreeNode → TreeNode)
    (hg : ∀ n, (g n).numberOfChildren = n.numberOfChildren)
    (k : Nat) : ∀ (l : List TreeNode) (pos : Nat),
    walkSiblings (l.map g) pos k = walkSiblings l pos k := by
  induction k with
  | zero => intro l pos; simp [walkSiblings]
  | succ i ih =>
    intro l pos
    simp only [walkSiblings, ← List.map_drop, treeLen_map g hg, ih]

/-! ## Lookup lemmas -/

theorem getRec_cons_zero (n : TreeNode) (l : List TreeNode) :
    getRec (n :: l) 0 = n := rfl

theorem getRec_cons_succ (n : TreeNode) (l : List TreeNode) (k : Nat) :
    getRec (n :: l) (k + 1) = getRec l k := rfl

theorem getRec_append_left (A B : List TreeNode) (k : Nat)
    (h : k < A.length) : getRec (A ++ B) k = getRec A k := by
  simp [getRec, List.getD, List.getElem?_append_left h]

theorem getRec_append (A : List TreeNode) (b : TreeNode) (B : List TreeNode) :
    getRec (A ++ b :: B) A.length = b := by
  simp [getRec, List.getD, List.getElem?_append_right (Nat.le_refl A.length)]

theorem findRecord_eq_indexOfId (l : List TreeNode) (i : Int) :
    findRecord l i = (indexOfId l i).map (fun k => getRec l k) := by
  induction l with
  | nil => simp [findRecord, indexOfId]
  | cons n rest ih =>
    by_cases h : n.identifier = i
    · simp [findRecord, indexOfId, h, getRec_cons_zero]
    · simp only [findRecord, indexOfId, if_neg h, ih, Option.map_map]
      cases indexOfId rest i <;> simp [getRec_cons_succ]

theorem indexOfId_bound {l : List TreeNode} {i : Int} {k : Nat}
    (h : indexOfId l i = some k) : k < l.length := by
  induction l generalizing k with
  | nil => simp [indexOfId] at h
  | cons n rest ih =>
    by_cases hn : n.identifier = i
    · simp [indexOfId, hn] at h
      simp [← h]
    · simp only [indexOfId, if_neg hn, Option.map_eq_some'] at h
      obtain ⟨k0, hk0, rfl⟩ := h
      have := ih hk0
      simp
      omega

theorem indexOfId_id {l : List TreeNode} {i : Int} {k : Nat}
    (h : indexOfId l i = some k) : (getRec l k).identifier = i := by
  induction l generalizing k with
  | nil => simp [indexOfId] at h
  | cons n rest ih =>
    by_cases hn : n.identifier = i
    · simp [indexOfId, hn] at h
      subst h; simpa [getRec_cons_zero]
    · simp only [indexOfId, if_neg hn, Option.map_eq_some'] at h
      obtain ⟨k0, hk0, rfl⟩ := h
      simpa [getRec_cons_succ] using ih hk0

theorem findRecord_isSome_iff (l : List TreeNode) (i : Int) :
    (findRecord l i).isSome ↔ ∃ n ∈ l, n.identifier = i := by
  induction l with
  | nil => simp [findRecord]
  | cons m rest ih =>
    by_cases hm : m.identifier = i
    · simp [findRecord, hm]
    · simp only [findRecord, if_neg hm, ih, List.mem_cons]
      constructor
      · rintro ⟨n, hn, hni⟩; exact ⟨n, Or.inr hn, hni⟩
      · rintro ⟨n, hn | hn, hni⟩
        · exact absurd (hn ▸ hni) hm
        · exact ⟨n, hn, hni⟩

theorem indexOfId_isSome_iff (l : List TreeNode) (i : Int) :
    (indexOfId l i).isSome ↔ ∃ n ∈ l, n.identifier = i := by
  rw [← findRecord_isSome_iff]
  rw [findRecord_eq_indexOfId]
  cases ho : indexOfId l i <;> simp [ho]

theorem indexOfId_append_of_prefix_free (A : List TreeNode) (b : TreeNode)
    (B : List TreeNode) (i : Int) (hA : ∀ n ∈ A, n.identifier ≠ i)
    (hb : b.identifier = i) :
    indexOfId (A ++ b :: B) i = some A.length := by
  induction A with
  | nil => simp [indexOfId, hb]
  | cons a rest ih =>
    have ha : a.identifier ≠ i := hA a (by simp)
    have hrest : ∀ n ∈ rest, n.identifier ≠ i := fun n hn =>
      hA n (by simp [hn])
    simp [indexOfId, ha, ih hrest]

theorem findRecord_append_of_prefix_free (A B : List TreeNode) (i : Int)
    (hA : ∀ n ∈ A, n.identifier ≠ i) :
    findRecord (A ++ B) i = findRecord B i := by
  induction A with
  | nil => rfl
  | cons a rest ih =>
    have ha : a.identifier ≠ i := hA a (by simp)
    rw [List.cons_append]
    show (if a.identifier = i then some a else findRecord (rest ++ B) i)
      = findRecord B i
    rw [if_neg ha, ih (fun n hn => hA n (by simp [hn]))]

theorem findRecord_some (l : List TreeNode) (i : Int) {n : TreeNode}
    (h : findRecord l i = some n) : n ∈ l ∧ n.identifier = i := by
  induction l with
  | nil => simp [findRecord] at h
  | cons m rest ih =>
    by_cases hm : m.identifier = i
    · simp [findRecord, hm] at h
      subst h; exact ⟨by simp, hm⟩
    · simp only [findRecord, if_neg hm] at h
      obtain ⟨h1, h2⟩ := ih h
      exact ⟨by simp [h1], h2⟩


/-! ## Identifier multiplicity -/

/-- How many records of `l` carry identifier `i`. -/
def idCount (l : List TreeNode) (i : Int) : Nat :=
  (poolIds l).count i

theorem poolIds_append (A B : List TreeNode) :
    poolIds (A ++ B) = poolIds A ++ poolIds B := by
  simp [poolIds]

theorem idCount_append (A B : List TreeNode) (i : Int) :
    idCount (A ++ B) i = idCount A i + idCount B i := by
  simp [idCount, poolIds_append]

theorem idCount_cons (n : TreeNode) (l : List TreeNode) (i : Int) :
    idCount (n :: l) i
      = idCount l i + if n.identifier = i then 1 else 0 := by
  simp [idCount, poolIds, List.count_cons]

theorem idCount_eq_zero_iff (l : List TreeNode) (i : Int) :
    idCount l i = 0 ↔ ∀ n ∈ l, n.identifier ≠ i := by
  simp only [idCount, List.count_eq_zero, poolIds, List.mem_map]
  constructor
  · intro h n hn hni; exact h ⟨n, hn, hni⟩
  · rintro h ⟨n, hn, hni⟩; exact h n hn hni

theorem idCount_pos_of_mem {l : List TreeNode} {n : TreeNode} (hn : n ∈ l)
    {i : Int} (hni : n.identifier = i) : 0 < idCount l i := by
  simp only [idCount, List.count_pos_iff, poolIds, List.mem_map]
  exact ⟨n, hn, hni⟩

theorem poolIds_modifyById (f : TreeNode → TreeNode) (i : Int)
    (hf : ∀ n, (f n).identifier = n.identifier) (l : List TreeNode) :
    poolIds (modifyById f i l) = poolIds l := by
  induction l with
  | nil => rfl
  | cons n rest ih =>
    by_cases hn : n.identifier = i <;>
      simp [modifyById, poolIds, hn, hf] at ih ⊢ <;> exact ih

theorem idCount_modifyById (f : TreeNode → TreeNode) (i j : Int)
    (hf : ∀ n, (f n).identifier = n.identifier) (l : List TreeNode) :
    idCount (modifyById f i l) j = idCount l j := by
  simp [idCount, poolIds_modifyById f i hf]

theorem idCount_perm {l l2 : List TreeNode} (h : l.Perm l2) (i : Int) :
    idCount l i = idCount l2 i := by
  exact (h.map TreeNode.identifier).count_eq i

theorem rec_unique_of_idCount {l : List TreeNode} {i : Int}
    (hc : idCount l i ≤ 1) {a b : TreeNode} (ha : a ∈ l) (hb : b ∈ l)
    (hai : a.identifier = i) (hbi : b.identifier = i) : a = b := by
  induction l with
  | nil => simp at ha
  | cons n rest ih =>
    have hsplit := idCount_cons n rest i
    rcases List.mem_cons.mp ha with rfl | ha2
    · rcases List.mem_cons.mp hb with rfl | hb2
      · rfl
      · exfalso
        have h1 : 0 < idCount rest i := idCount_pos_of_mem hb2 hbi
        rw [hsplit, if_pos hai] at hc
        omega
    · rcases List.mem_cons.mp hb with rfl | hb2
      · exfalso
        have h1 : 0 < idCount rest i := idCount_pos_of_mem ha2 hai
        rw [hsplit, if_pos hbi] at hc
        omega
      · refine ih ?_ ha2 hb2
        rw [hsplit] at hc
        omega

theorem findRecord_perm {l l2 : List TreeNode} (h : l.Perm l2) (i : Int)
    (hc : idCount l i ≤ 1) : findRecord l i = findRecord l2 i := by
  cases h1 : findRecord l i with
  | none =>
    cases h2 : findRecord l2 i with
    | none => rfl
    | some b =>
      exfalso
      obtain ⟨hb, hbi⟩ := findRecord_some l2 i h2
      have : (findRecord l i).isSome := by
        rw [findRecord_isSome_iff]
        exact ⟨b, h.symm.subset hb, hbi⟩
      simp [h1] at this
  | some a =>
    obtain ⟨ha, hai⟩ := findRecord_some l i h1
    cases h2 : findRecord l2 i with
    | none =>
      exfalso
      have : (findRecord l2 i).isSome := by
        rw [findRecord_isSome_iff]
        exact ⟨a, h.subset ha, hai⟩
      simp [h2] at this
    | some b =>
      obtain ⟨hb, hbi⟩ := findRecord_some l2 i h2
      exact congrArg some
        (rec_unique_of_idCount hc ha (h.symm.subset hb) hai hbi)

/-! ## `modifyById` structure lemmas -/

theorem modifyById_append (f : TreeNode → TreeNode) (i : Int)
    (A B : List TreeNode) :
    modifyById f i (A ++ B) = modifyById f i A ++ modifyById f i B := by
  simp [modifyById]

theorem modifyById_cons (f : TreeNode → TreeNode) (i : Int) (n : TreeNode)
    (l : List TreeNode) :
    modifyById f i (n :: l)
      = (if n.identifier = i then f n else n) :: modifyById f i l := by
  simp [modifyById]

theorem modifyById_of_free (f : TreeNode → TreeNode) (i : Int)
    {l : List TreeNode} (h : ∀ n ∈ l, n.identifier ≠ i) :
    modifyById f i l = l := by
  induction l with
  | nil => rfl
  | cons n rest ih =>
    rw [modifyById_cons, if_neg (h n (by simp)),
      ih fun m hm => h m (by simp [hm])]

theorem findRecord_modifyById (f : TreeNode → TreeNode) (i : Int)
    (hf : ∀ n, (f n).identifier = n.identifier) (l : List TreeNode) (j : Int) :
    findRecord (modifyById f i l) j
      = if j = i then (findRecord l i).map f else findRecord l j := by
  induction l with
  | nil => by_cases hj : j = i <;> simp [modifyById, findRecord, hj]
  | cons n rest ih =>
    rw [modifyById_cons]
    by_cases hn : n.identifier = i
    · rw [if_pos hn]
      by_cases hj : j = i
      · subst hj
        have : (f n).identifier = j := by rw [hf]; exact hn
        simp [findRecord, this, hn]
      · have : (f n).identifier ≠ j := by rw [hf, hn]; exact fun hh => hj hh.symm
        have hnj : n.identifier ≠ j := by rw [hn]; exact fun hh => hj hh.symm
        simp [findRecord, this, hnj, ih, hj]
    · rw [if_neg hn]
      by_cases hj : j = i
      · subst hj
        simp [findRecord, hn, ih]
      · by_cases hnj : n.identifier = j
        · simp [findRecord, hnj, hj]
        · simp [findRecord, hnj, ih, hj]

/-! ## `move` lemmas -/

theorem move_perm (l : List TreeNode) (src dst : Nat) :
    (move l src dst).Perm l := by
  simp only [move]
  by_cases h1 : src + treeLen (l.drop src) ≤ l.length
  · by_cases h2 : dst ≤ src
    · rw [if_pos h1, if_pos h2]
      have h3 : (l.drop dst).drop (src - dst) = l.drop src := by
        rw [List.drop_drop, Nat.add_sub_cancel' h2]
      have h4 : (l.drop src).drop (treeLen (l.drop src))
          = l.drop (src + treeLen (l.drop src)) := by
        rw [List.drop_drop]
      conv_rhs => rw [← List.take_append_drop dst l,
        ← List.take_append_drop (src - dst) (l.drop dst), h3,
        ← List.take_append_drop (treeLen (l.drop src)) (l.drop src), h4]
      rw [List.append_assoc, List.append_assoc]
      exact List.Perm.append_left _ (List.perm_append_comm_assoc _ _ _)
    · rw [if_pos h1, if_neg h2]
      by_cases h3 : src + treeLen (l.drop src) ≤ dst ∧ dst ≤ l.length
      · rw [if_pos h3]
        have h4 : (l.drop src).drop (treeLen (l.drop src))
            = l.drop (src + treeLen (l.drop src)) := by
          rw [List.drop_drop]
        have h5 : (l.drop (src + treeLen (l.drop src))).drop
            (dst - (src + treeLen (l.drop src))) = l.drop dst := by
          rw [List.drop_drop, Nat.add_sub_cancel' h3.1]
        conv_rhs => rw [← List.take_append_drop src l,
          ← List.take_append_drop (treeLen (l.drop src)) (l.drop src), h4,
          ← List.take_append_drop (dst - (src + treeLen (l.drop src)))
            (l.drop (src + treeLen (l.drop src))), h5]
        rw [List.append_assoc, List.append_assoc]
        exact List.Perm.append_left _ (List.perm_append_comm_assoc _ _ _)
      · rw [if_neg h3]
  · rw [if_neg h1]

/-- Relocating a complete block `B` leftward, to just before the records
`M` that separate the destination from it. -/
theorem move_block_left (P M B T : List TreeNode)
    (hB : treeLen (B ++ T) = B.length) :
    move (P ++ (M ++ (B ++ T))) (P.length + M.length) P.length
      = P ++ (B ++ (M ++ T)) := by
  have hdropPM : (P ++ (M ++ (B ++ T))).drop (P.length + M.length)
      = B ++ T := by
    rw [show P ++ (M ++ (B ++ T)) = (P ++ M) ++ (B ++ T) by
      simp [List.append_assoc]]
    exact List.drop_left' (by simp)
  have htl : treeLen ((P ++ (M ++ (B ++ T))).drop (P.length + M.length))
      = B.length := by rw [hdropPM]; exact hB
  have hdropP : (P ++ (M ++ (B ++ T))).drop P.length = M ++ (B ++ T) :=
    List.drop_left' rfl
  have hdropPMB : (P ++ (M ++ (B ++ T))).drop (P.length + M.length + B.length)
      = T := by
    rw [show P ++ (M ++ (B ++ T)) = (P ++ (M ++ B)) ++ T by
      simp [List.append_assoc]]
    exact List.drop_left' (by simp; omega)
  simp only [move, htl]
  rw [if_pos (by simp; omega), if_pos (by omega)]
  rw [hdropPM, hdropP,
    show P.length + M.length - P.length = M.length by omega, hdropPMB]
  simp only [List.take_left', List.append_assoc]

/-- Relocating a complete block `B` rightward, to just after the records
`M` that separate it from the destination. -/
theorem move_block_right (P B M T : List TreeNode)
    (hB : treeLen (B ++ (M ++ T)) = B.length) (hBne : B ≠ []) :
    move (P ++ (B ++ (M ++ T))) P.length (P.length + (B.length + M.length))
      = P ++ (M ++ (B ++ T)) := by
  have hdropP : (P ++ (B ++ (M ++ T))).drop P.length = B ++ (M ++ T) :=
    List.drop_left' rfl
  have htl : treeLen ((P ++ (B ++ (M ++ T))).drop P.length) = B.length := by
    rw [hdropP]; exact hB
  have hdropPB : (P ++ (B ++ (M ++ T))).drop (P.length + B.length)
      = M ++ T := by
    rw [show P ++ (B ++ (M ++ T)) = (P ++ B) ++ (M ++ T) by
      simp [List.append_assoc]]
    exact List.drop_left' (by simp)
  have hdropPBM : (P ++ (B ++ (M ++ T))).drop
      (P.length + (B.length + M.length)) = T := by
    rw [show P ++ (B ++ (M ++ T)) = (P ++ (B ++ M)) ++ T by
      simp [List.append_assoc]]
    exact List.drop_left' (by simp <;> omega)
  have hBpos : 0 < B.length := List.length_pos.mpr hBne
  simp only [move, htl]
  rw [if_pos (by simp <;> omega), if_neg (by omega),
    if_pos (⟨by omega, by simp <;> omega⟩ : _ ∧ _)]
  rw [hdropPB,
    show P.length + (B.length + M.length) - (P.length + B.length)
      = M.length by omega, hdropP, hdropPBM]
  simp only [List.take_left', List.append_assoc]

/-- Relocating a trailing-complete block `B` to the trash position at the
end of the pool. -/
theorem move_to_end (P B Z : List TreeNode)
    (hB : treeLen (B ++ Z) = B.length) (hBne : B ≠ []) :
    move (P ++ (B ++ Z)) P.length (P ++ (B ++ Z)).length
      = P ++ (Z ++ B) := by
  have h := move_block_right P B Z [] (by simpa using hB) hBne
  simp only [List.append_nil] at h
  rw [show (P ++ (B ++ Z)).length = P.length + (B.length + Z.length) by
    simp [List.length_append]]
  exact h

/-! ## Sibling walking over a forest -/

theorem walkSiblings_forest (i : Nat) :
    ∀ (A : List TreeNode) (ts : List STree) (r : List TreeNode),
    forestWfb ts = true → i ≤ ts.length →
    walkSiblings (A ++ (forestFlat ts ++ r)) A.length i
      = A.length + (forestFlat (ts.take i)).length := by
  induction i with
  | zero =>
    intro A ts r hwf hi
    simp [walkSiblings, forestFlat]
  | succ i ih =>
    intro A ts r hwf hi
    match ts with
    | [] => simp at hi
    | t :: rest =>
      have hwf2 : STree.wfb t = true ∧ forestWfb rest = true := by
        simpa [forestWfb, Bool.and_eq_true] using hwf
      have hdropA : (A ++ (forestFlat (t :: rest) ++ r)).drop A.length
          = STree.flat t ++ (forestFlat rest ++ r) := by
        rw [List.drop_left' rfl]
        simp [forestFlat, List.append_assoc]
      have htl : treeLen ((A ++ (forestFlat (t :: rest) ++ r)).drop A.length)
          = (STree.flat t).length := by
        rw [hdropA]; exact treeLen_flat_append t hwf2.1 _
      rw [walkSiblings, htl]
      have hre : A ++ (forestFlat (t :: rest) ++ r)
          = (A ++ STree.flat t) ++ (forestFlat rest ++ r) := by
        simp [forestFlat, List.append_assoc]
      have hlen : A.length + (STree.flat t).length
          = (A ++ STree.flat t).length := by simp
      rw [hre, hlen, ih (A ++ STree.flat t) rest r hwf2.2 (by simpa using hi)]
      simp [forestFlat, List.take_cons, List.length_append]
      omega

/-! ## Small helpers for end-of-pool rewriting -/

theorem modifyAt_append_singleton (A : List TreeNode) (x : TreeNode)
    (f : TreeNode → TreeNode) :
    modifyAt (A ++ [x]) A.length f = A ++ [f x] := by
  have hg : getRec (A ++ [x]) A.length = x := getRec_append A x []
  simp [modifyAt, hg, List.set_append_right _ _ (Nat.le_refl A.length)]

/-! ## Retain-count reading helpers -/

theorem findRecord_retain_self (l : List TreeNode) (i : Int) :
    findRecord (retain l i) i = (findRecord l i).map
      fun n => { n with referenceCounter := n.referenceCounter + 1 } := by
  have h := findRecord_modifyById
    (fun n => { n with referenceCounter := n.referenceCounter + 1 }) i
    (fun _ => rfl) l i
  simpa [retain] using h

theorem retainCountOf_retain_self (l : List TreeNode) (i : Int) :
    retainCountOf (retain l i) i = (retainCountOf l i).map (· + 1) := by
  rw [retainCountOf, retainCountOf, findRecord_retain_self]
  cases findRecord l i <;> simp

theorem retainCountOf_retain_ne (l : List TreeNode) (i j : Int)
    (h : j ≠ i) : retainCountOf (retain l i) j = retainCountOf l j := by
  have h2 := findRecord_modifyById
    (fun n => { n with referenceCounter := n.referenceCounter + 1 }) i
    (fun _ => rfl) l j
  rw [retainCountOf, retain, h2, if_neg h, retainCountOf]

/-! ## The claims -/

/-- Concrete pool for the C5 witness: a one-child parent (identifier 0)
and a detached failure sentinel (identifier 1). -/
def c5pool : TreePool :=
  ⟨[⟨0, 1, 1, 0, false⟩, ⟨2, 1, 0, 0, false⟩, ⟨1, 1, 0, 0, true⟩], 3, 1⟩

/-- C5: when `newChild` is an allocation failure, `replaceChildAtIndex`
degrades in its entirety to `replaceWithAllocationFailure` on `self`; the
normal replacement path is not executed. -/
theorem claim_C5_failure_child_degrades (pl : TreePool)
    (selfId oldChildIndex newChildId : Int)
    (h : TreeReference.isAllocationFailure pl.nodes newChildId = true) :
    TreeReference.replaceChildAtIndex pl selfId oldChildIndex newChildId
      = TreeReference.replaceWithAllocationFailure pl selfId := by
  rw [TreeReference.replaceChildAtIndex, if_pos h]

/-- C5 witness: the degradation at a concrete pool. -/
theorem claim_C5_witness :
    TreeReference.isAllocationFailure c5pool.nodes 1 = true ∧
    TreeReference.replaceChildAtIndex c5pool 0 0 1
      = TreeReference.replaceWithAllocationFailure c5pool 0 :=
  ⟨by decide, claim_C5_failure_child_degrades c5pool 0 0 1 (by decide)⟩

/-- C9: a freshly default-constructed handle is defined with a non-negative
identifier; in general `isDefined` is false exactly when the identifier is
negative or no longer resolves to a record. -/
theorem claim_C9_fresh_handle_defined :
    (∀ (pl : TreePool) (tag : Nat),
      TreeReference.isDefined (TreeReference.defaultConstructor pl tag).2
        (TreeReference.defaultConstructor pl tag).1 = true ∧
      0 ≤ (TreeReference.defaultConstructor pl tag).1) ∧
    (∀ (pl : TreePool) (j : Int),
      TreeReference.isDefined pl j = false ↔
        (j < 0 ∨ findRecord pl.nodes j = none)) := by
  constructor
  · intro pl tag
    constructor
    · simp only [TreeReference.defaultConstructor, TreeReference.isDefined]
      rw [Bool.and_eq_true]
      refine ⟨by simp, ?_⟩
      exact (findRecord_isSome_iff _ _).mpr
        ⟨{ identifier := (pl.nextId : Int), referenceCounter := 1,
           numberOfChildren := 0, treeTag := tag,
           isAllocationFailure := false },
         List.mem_append_right _ (by simp), rfl⟩
    · simp [TreeReference.defaultConstructor]
  · intro pl j
    rw [TreeReference.isDefined, Bool.and_eq_false_iff]
    constructor
    · rintro (h | h)
      · exact Or.inl (by simpa [Int.not_le] using of_decide_eq_false h)
      · exact Or.inr (Option.not_isSome_iff_eq_none.mp (by simp [h]))
    · rintro (h | h)
      · exact Or.inl (decide_eq_false (by omega))
      · exact Or.inr (by simp [h])

/-- Concrete pool for the C10 witness: two unrelated single-record trees. -/
def c10pool : TreePool :=
  ⟨[⟨0, 1, 0, 0, false⟩, ⟨1, 1, 0, 0, false⟩], 2, -1⟩

/-- C10 (implicit): assignment onto an already-bound handle rebinds it to
the source's identifier and retains the source's node, but issues no
release for the node previously referenced — when the two identifiers
differ, that node's retain count is untouched by the assignment. -/
theorem claim_C10_assign_leaks_previous (pl : TreePool) (aId bId : Int) :
    (TreeReference.assign pl aId bId).1 = bId ∧
    retainCountOf (TreeReference.assign pl aId bId).2.nodes bId
      = (retainCountOf pl.nodes bId).map (· + 1) ∧
    (aId ≠ bId →
      retainCountOf (TreeReference.assign pl aId bId).2.nodes aId
        = retainCountOf pl.nodes aId) := by
  refine ⟨rfl, ?_, ?_⟩
  · exact retainCountOf_retain_self pl.nodes bId
  · intro hne
    exact retainCountOf_retain_ne pl.nodes bId aId hne

/-- C10 witness: at a concrete pool, the previous node of the assigned-to
handle keeps its retain count (no release is issued for it). -/
theorem claim_C10_witness :
    (TreeReference.assign c10pool 0 1).1 = 1 ∧
    retainCountOf (TreeReference.assign c10pool 0 1).2.nodes 1 = some 2 ∧
    retainCountOf (TreeReference.assign c10pool 0 1).2.nodes 0 = some 1 := by
  have h := claim_C10_assign_leaks_previous c10pool 0 1
  refine ⟨h.1, ?_, ?_⟩
  · rw [h.2.1]; decide
  · rw [h.2.2 (by decide)]; decide

/-- Reading a mapped pool at an in-range position. -/
theorem getRec_map (g : TreeNode → TreeNode) (l : List TreeNode) (idx : Nat)
    (h : idx < l.length) : getRec (l.map g) idx = g (getRec l idx) := by
  simp [getRec, List.getD, List.getElem?_map, List.getElem?_eq_getElem h]

/-- An identifier-preserving rewrite does not change lookup positions. -/
theorem indexOfId_modifyById (f : TreeNode → TreeNode) (i : Int)
    (hf : ∀ n, (f n).identifier = n.identifier) (l : List TreeNode) (j : Int) :
    indexOfId (modifyById f i l) j = indexOfId l j := by
  induction l with
  | nil => rfl
  | cons n rest ih =>
    rw [modifyById_cons]
    by_cases hn : n.identifier = i
    · rw [if_pos hn]
      show indexOfId (f n :: modifyById f i rest) j = _
      rw [indexOfId, indexOfId, hf, ih]
    · rw [if_neg hn]
      show indexOfId (n :: modifyById f i rest) j = _
      rw [indexOfId, indexOfId, ih]

/-- Releasing an identifier whose record holds a retain count other than one
decrements the count without destroying the record. -/
theorem retainCountOf_release (l : List TreeNode) (i : Int) {n : TreeNode}
    (hf : findRecord l i = some n) (hr : n.referenceCounter ≠ 1) :
    retainCountOf (release l i) i = some (n.referenceCounter - 1) := by
  have hfid : ∀ m : TreeNode,
      ((fun x : TreeNode =>
        { x with referenceCounter := x.referenceCounter - 1 })
        m).identifier = m.identifier := fun m => rfl
  have hform := findRecord_eq_indexOfId l i
  rw [hf] at hform
  cases hidx : indexOfId l i with
  | none => rw [hidx, Option.map_none'] at hform; exact absurd hform (by simp)
  | some idx =>
    rw [hidx, Option.map_some'] at hform
    have hgn : getRec l idx = n := (Option.some_injective _ hform).symm
    have hlt : idx < l.length := indexOfId_bound hidx
    have hni : n.identifier = i := by rw [← hgn]; exact indexOfId_id hidx
    have hidx2 : indexOfId (modifyById
        (fun m => { m with referenceCounter := m.referenceCounter - 1 }) i l) i
        = some idx := by
      rw [indexOfId_modifyById _ i hfid l i, hidx]
    have hget : getRec (modifyById
        (fun m => { m with referenceCounter := m.referenceCounter - 1 }) i l)
        idx = { n with referenceCounter := n.referenceCounter - 1 } := by
      rw [modifyById, getRec_map _ l idx hlt, hgn, if_pos hni]
    have hfind : findRecord (modifyById
        (fun m => { m with referenceCounter := m.referenceCounter - 1 }) i l) i
        = some { n with referenceCounter := n.referenceCounter - 1 } := by
      rw [findRecord_modifyById
        (fun m => { m with referenceCounter := m.referenceCounter - 1 })
        i hfid l i, if_pos rfl, hf, Option.map_some']
    simp only [release, hidx2, hget]
    rw [if_neg (show ¬({ n with referenceCounter :=
        n.referenceCounter - 1 } : TreeNode).referenceCounter = 0 by
      show ¬(n.referenceCounter - 1 = 0); omega),
      retainCountOf, hfind]
    simp

/-- Concrete pools for the C2 theorems. -/
def c2pool : TreePool := ⟨[⟨0, 1, 0, 0, false⟩], 1, -1⟩

def c2pool2 : TreePool := ⟨[⟨0, 2, 0, 0, false⟩], 1, -1⟩

/-- C2 counterexample: move construction does *not* leave the node's retain
count unchanged — at this concrete pool it increments it from 1 to 2,
because the source gives the move constructor the copy constructor's body. -/
theorem claim_C2_counterexample :
    retainCountOf c2pool.nodes 0 = some 1 ∧
    retainCountOf (TreeReference.moveConstructor c2pool 0).2.nodes 0
      = some 2 := by
  exact ⟨by decide, by decide⟩

/-- C2 amended: copy construction binds to the same identifier and retains;
move construction and assignment have the same body as copying (so they also
retain, instead of transferring ownership with no count change); destroying
a bound handle releases, decrementing the count when it does not reach
zero. -/
theorem claim_C2_amended :
    (∀ (pl : TreePool) (h : Int),
      (TreeReference.copyConstructor pl h).1 = h ∧
      retainCountOf (TreeReference.copyConstructor pl h).2.nodes h
        = (retainCountOf pl.nodes h).map (· + 1)) ∧
    (∀ (pl : TreePool) (h : Int),
      TreeReference.moveConstructor pl h
        = TreeReference.copyConstructor pl h) ∧
    (∀ (pl : TreePool) (a b : Int),
      TreeReference.assign pl a b = TreeReference.copyConstructor pl b) ∧
    (∀ (pl : TreePool) (h : Int) (n : TreeNode), 0 ≤ h →
      findRecord pl.nodes h = some n → n.referenceCounter ≠ 1 →
      retainCountOf (TreeReference.destructor pl h).nodes h
        = some (n.referenceCounter - 1)) := by
  refine ⟨?_, fun pl h => rfl, fun pl a b => rfl, ?_⟩
  · intro pl h
    exact ⟨rfl, retainCountOf_retain_self pl.nodes h⟩
  · intro pl h n h0 hf hr
    rw [TreeReference.destructor, if_pos h0]
    exact retainCountOf_release pl.nodes h hf hr

/-- C2 witness: the amended behaviour at concrete pools. -/
theorem claim_C2_witness :
    retainCountOf (TreeReference.copyConstructor c2pool 0).2.nodes 0
      = some 2 ∧
    retainCountOf (TreeReference.destructor c2pool2 0).nodes 0 = some 1 := by
  have h := claim_C2_amended
  constructor
  · rw [(h.1 c2pool 0).2]; decide
  · rw [h.2.2.2 c2pool2 0 ⟨0, 2, 0, 0, false⟩ (by decide) (by decide)
      (by decide)]
    decide

/-- Concrete pool for C3: the handle's node (identifier 0) is a failure
sentinel; identifier 1 is another live record. -/
def c3pool : TreePool :=
  ⟨[⟨0, 1, 0, 0, true⟩, ⟨1, 1, 0, 0, false⟩], 2, 0⟩

/-- C3 counterexample: with `self` a failure sentinel, `removeChild` is not
a no-op — at this concrete pool it trashes and destroys the argument and
decrements the sentinel's child count, changing the arena state. -/
theorem claim_C3_counterexample :
    TreeReference.isAllocationFailure c3pool.nodes 0 = true ∧
    TreeReference.removeChild c3pool 0 1 ≠ c3pool := by
  exact ⟨by decide, by decide⟩

/-- C3 amended: of the four hierarchy mutations only `addChildAtIndex`
checks for a failure-sentinel `self`; that one is a no-op leaving the arena
unchanged (while `removeChild`, `replaceChildAtIndex` and `swapChildren`
run their usual effects regardless). -/
theorem claim_C3_amended (pl : TreePool) (selfId tId index : Int)
    (selfIdx : Nat) (hidx : indexOfId pl.nodes selfId = some selfIdx)
    (hfail : (getRec pl.nodes selfIdx).isAllocationFailure = true) :
    TreeReference.addChildAtIndex pl selfId tId index = pl := by
  simp only [TreeReference.addChildAtIndex, hidx, hfail, if_true]

/-- C3 witness: the sentinel-guarded `addChildAtIndex` at a concrete
pool. -/
theorem claim_C3_witness :
    TreeReference.addChildAtIndex c3pool 0 1 0 = c3pool :=
  claim_C3_amended c3pool 0 1 0 0 (by decide) (by decide)

/-! ## C8: clone -/

theorem relabelFrom_shape (xs : List TreeNode) : ∀ (b : Nat),
    (TreeReference.relabelFrom b xs).map (fun n => (n.treeTag, n.numberOfChildren))
      = xs.map (fun n => (n.treeTag, n.numberOfChildren)) := by
  induction xs with
  | nil => intro b; rfl
  | cons x rest ih => intro b; simp [TreeReference.relabelFrom, ih]

theorem relabelFrom_ids_le (xs : List TreeNode) : ∀ (b : Nat),
    ∀ m ∈ TreeReference.relabelFrom b xs, (b : Int) ≤ m.identifier := by
  induction xs with
  | nil => intro b m hm; simp [TreeReference.relabelFrom] at hm
  | cons x rest ih =>
    intro b m hm
    rcases List.mem_cons.mp hm with rfl | hm2
    · simp
    · have := ih (b + 1) m hm2
      push_cast at this ⊢
      omega

/-- A rewrite that keeps type tags and child counts keeps the structural
shape of the serialisation. -/
theorem map_shape_modifyById (f : TreeNode → TreeNode)
    (hf : ∀ n, (f n).treeTag = n.treeTag
      ∧ (f n).numberOfChildren = n.numberOfChildren)
    (i : Int) (ys : List TreeNode) :
    (modifyById f i ys).map (fun n => (n.treeTag, n.numberOfChildren))
      = ys.map (fun n => (n.treeTag, n.numberOfChildren)) := by
  induction ys with
  | nil => rfl
  | cons y rest ih =>
    rw [modifyById_cons]
    by_cases hy : y.identifier = i
    · simp [hy, ih, (hf y).1, (hf y).2]
    · simp [hy, ih]

/-- C8: cloning a failure sentinel returns a fresh handle on the canonical
sentinel identifier without copying any record; cloning anything else
appends a deep copy — a block whose (type tag, child count) sequence equals
the source subtree's and whose identifiers are disjoint from it — and hands
back the copy's root identifier. -/
theorem claim_C8_clone_sentinel_or_deepcopy :
    (∀ (pl : TreePool) (selfId : Int) (selfIdx j : Nat),
      indexOfId pl.nodes selfId = some selfIdx →
      (getRec pl.nodes selfIdx).isAllocationFailure = true →
      indexOfId pl.nodes pl.allocationFailureNodeId = some j →
      (TreeReference.clone pl selfId).1 = pl.allocationFailureNodeId ∧
      (TreeReference.clone pl selfId).2.nodes.length = pl.nodes.length) ∧
    (∀ (pl : TreePool) (selfId : Int) (selfIdx : Nat),
      indexOfId pl.nodes selfId = some selfIdx →
      (getRec pl.nodes selfIdx).isAllocationFailure = false →
      (∀ n ∈ pl.nodes, n.identifier < (pl.nextId : Int)) →
      ∃ B, (TreeReference.clone pl selfId).2.nodes = pl.nodes ++ B ∧
        B.map (fun n => (n.treeTag, n.numberOfChildren))
          = ((pl.nodes.drop selfIdx).take
              (treeLen (pl.nodes.drop selfIdx))).map
            (fun n => (n.treeTag, n.numberOfChildren)) ∧
        ∀ m ∈ B, ∀ o ∈ (pl.nodes.drop selfIdx).take
            (treeLen (pl.nodes.drop selfIdx)),
          m.identifier ≠ o.identifier) := by
  constructor
  · intro pl selfId selfIdx j hidx hfail hj
    simp only [TreeReference.clone, hidx, hfail, if_true, hj,
      TreeReference.setIdentifierAndRetain]
    exact ⟨by trivial, by simp [retain, modifyById]⟩
  · intro pl selfId selfIdx hidx hfail hbound
    simp only [TreeReference.clone, hidx, hfail, Bool.false_eq_true,
      if_false, TreeReference.deepCopy, TreeReference.setIdentifierAndRetain]
    set F := (match (pl.nodes.drop selfIdx).take
        (treeLen (pl.nodes.drop selfIdx)) with
      | [] => ([] : List TreeNode)
      | r :: rest =>
        { r with identifier := (pl.nextId : Int), referenceCounter := 0 }
          :: TreeReference.relabelFrom (pl.nextId + 1) rest) with hF
    have hidsF : ∀ m ∈ F, ((pl.nextId : Nat) : Int) ≤ m.identifier := by
      rw [hF]
      intro m hm
      revert hm
      cases hbl : (pl.nodes.drop selfIdx).take
          (treeLen (pl.nodes.drop selfIdx)) with
      | nil => intro hm; simp at hm
      | cons r rest =>
        intro hm
        rcases List.mem_cons.mp hm with rfl | hm2
        · simp
        · have := relabelFrom_ids_le rest (pl.nextId + 1) m hm2
          push_cast at this ⊢
          omega
    have hfree : retain pl.nodes (pl.nextId : Int) = pl.nodes := by
      rw [retain]
      exact modifyById_of_free _ _ (fun n hn => by
        have := hbound n hn; omega)
    refine ⟨retain F (pl.nextId : Int), ?_, ?_, ?_⟩
    · show retain (pl.nodes ++ F) (pl.nextId : Int)
        = pl.nodes ++ retain F (pl.nextId : Int)
      rw [retain, modifyById_append, ← retain, ← retain, hfree]
    · rw [retain, map_shape_modifyById
        (fun n => { n with referenceCounter := n.referenceCounter + 1 })
        (fun n => ⟨rfl, rfl⟩) (pl.nextId : Int) F, hF]
      cases hbl : (pl.nodes.drop selfIdx).take
          (treeLen (pl.nodes.drop selfIdx)) with
      | nil => simp
      | cons r rest => simp [relabelFrom_shape]
    · intro m hm o ho
      have hmF : ∃ x ∈ F, m.identifier = x.identifier := by
        rw [retain, modifyById] at hm
        obtain ⟨x, hx, rfl⟩ := List.mem_map.mp hm
        refine ⟨x, hx, ?_⟩
        by_cases hxi : x.identifier = (pl.nextId : Int) <;> simp [hxi]
      obtain ⟨x, hx, hmx⟩ := hmF
      have hxle := hidsF x hx
      have hoin : o ∈ pl.nodes :=
        List.mem_of_mem_drop (List.mem_of_mem_take ho)
      have := hbound o hoin
      omega

/-! ## C1: identifier stability of the allocation-failure protocol -/

/-- The identifier `i` occurs in the pool, and every record carrying it is
a failure sentinel — so any handle holding `i` resolves and observes
`isAllocationFailure`. -/
def ResolvesToFailure (l : List TreeNode) (i : Int) : Prop :=
  (∃ n ∈ l, n.identifier = i)
    ∧ ∀ n ∈ l, n.identifier = i → n.isAllocationFailure = true

theorem ResolvesToFailure.conclusion {l : List TreeNode} {i : Int}
    (h : ResolvesToFailure l i) :
    TreeReference.isAllocationFailure l i = true
      ∧ (findRecord l i).isSome := by
  have hsome : (findRecord l i).isSome := (findRecord_isSome_iff l i).mpr h.1
  cases hf : findRecord l i with
  | none => rw [hf] at hsome; simp at hsome
  | some n =>
    obtain ⟨hn, hni⟩ := findRecord_some l i hf
    exact ⟨by rw [TreeReference.isAllocationFailure, hf]; exact h.2 n hn hni,
      by simp⟩

theorem ResolvesToFailure.perm {l l2 : List TreeNode} {i : Int}
    (hp : l.Perm l2) (h : ResolvesToFailure l i) :
    ResolvesToFailure l2 i := by
  obtain ⟨⟨n, hn, hni⟩, hall⟩ := h
  exact ⟨⟨n, hp.subset hn, hni⟩,
    fun m hm hmi => hall m (hp.symm.subset hm) hmi⟩

theorem ResolvesToFailure.modify {l : List TreeNode} {i : Int}
    (f : TreeNode → TreeNode) (j : Int)
    (hfid : ∀ n, (f n).identifier = n.identifier)
    (hffl : ∀ n, (f n).isAllocationFailure = n.isAllocationFailure)
    (h : ResolvesToFailure l i) :
    ResolvesToFailure (modifyById f j l) i := by
  obtain ⟨⟨n, hn, hni⟩, hall⟩ := h
  constructor
  · refine ⟨if n.identifier = j then f n else n, ?_, ?_⟩
    · rw [modifyById]
      exact List.mem_map.mpr ⟨n, hn, rfl⟩
    · by_cases hj : n.identifier = j
      · rw [if_pos hj, hfid n]
        exact hni
      · rw [if_neg hj]
        exact hni
  · intro m hm hmi
    rw [modifyById] at hm
    obtain ⟨x, hx, rfl⟩ := List.mem_map.mp hm
    by_cases hj : x.identifier = j
    · rw [if_pos hj] at hmi ⊢
      rw [hffl]
      exact hall x hx (by rw [← hfid x]; exact hmi)
    · rw [if_neg hj] at hmi ⊢
      exact hall x hx hmi

theorem ResolvesToFailure.addChildAtIndex {i : Int} (pl : TreePool)
    (a b index : Int) (h : ResolvesToFailure pl.nodes i) :
    ResolvesToFailure (TreeReference.addChildAtIndex pl a b index).nodes i := by
  rw [TreeReference.addChildAtIndex]
  cases hidx : indexOfId pl.nodes a with
  | none => exact h
  | some selfIdx =>
    by_cases hfl : (getRec pl.nodes selfIdx).isAllocationFailure
    · simp only [hfl, if_true]
      exact h
    · simp only [hfl, Bool.false_eq_true, if_false]
      have h1 : ResolvesToFailure (retain pl.nodes b) i :=
        h.modify _ b (fun _ => rfl) (fun _ => rfl)
      cases hti : indexOfId (retain pl.nodes b) b with
      | none =>
        exact h1.modify _ a (fun _ => rfl) (fun _ => rfl)
      | some tIdx =>
        exact (h1.perm (move_perm _ tIdx _).symm).modify _ a
          (fun _ => rfl) (fun _ => rfl)

theorem treeLen_drop_pos {l : List TreeNode} {idx : Nat}
    (h : idx < l.length) : 0 < treeLen (l.drop idx) := by
  cases hd : l.drop idx with
  | nil =>
    have := List.drop_eq_nil_iff.mp hd
    omega
  | cons n rest => simp [treeLen, subtreesLen]

theorem idCount_removeBlock_zero {l : List TreeNode} {i : Int} {idx : Nat}
    (hidx : indexOfId l i = some idx) (hc : idCount l i = 1) :
    idCount (removeBlock l idx) i = 0 := by
  have hlt : idx < l.length := indexOfId_bound hidx
  have hsplit : l = l.take idx ++ l.drop idx := (List.take_append_drop idx l).symm
  have hdropc : l.drop idx = getRec l idx :: l.drop (idx + 1) := by
    have hg : getRec l idx = l[idx] := by
      simp [getRec, List.getD_eq_getElem?_getD, List.getElem?_eq_getElem hlt]
    rw [hg]
    exact (List.getElem_cons_drop l idx hlt).symm
  have hcnt : idCount (l.take idx) i + (1 + idCount (l.drop (idx + 1)) i)
      = 1 := by
    have h1 : idCount l i
        = idCount (l.take idx) i + idCount (l.drop idx) i := by
      conv_lhs => rw [hsplit]
      exact idCount_append _ _ i
    rw [hdropc, idCount_cons, if_pos (indexOfId_id hidx)] at h1
    omega
  have he : 0 < treeLen (l.drop idx) := treeLen_drop_pos hlt
  have hsub : idCount (l.drop (idx + treeLen (l.drop idx))) i
      ≤ idCount (l.drop (idx + 1)) i := by
    have hdd : (l.drop (idx + 1)).drop (treeLen (l.drop idx) - 1)
        = l.drop (idx + treeLen (l.drop idx)) := by
      rw [List.drop_drop]
      congr 1
      omega
    rw [← hdd]
    exact ((List.drop_sublist _ _).map TreeNode.identifier).count_le i
  rw [removeBlock, idCount_append]
  omega

/-- The substituted-and-renamed sentinel block at the end of a pool that no
longer carries the identifier resolves that identifier to a failure. -/
theorem sentinelTail_resolves (l3 : List TreeNode) (selfId : Int)
    (base : Nat) (f : TreeNode → TreeNode)
    (hf : ∀ n, (f n).identifier = n.identifier
      ∧ (f n).isAllocationFailure = n.isAllocationFailure)
    (h0 : idCount l3 selfId = 0) :
    ResolvesToFailure
      (modifyAt
        (modifyAt (l3 ++ [{ staticAllocationFailureNode with
            identifier := (base : Int) }])
          l3.length (fun n => { n with identifier := selfId }))
        l3.length f) selfId := by
  rw [modifyAt_append_singleton, modifyAt_append_singleton]
  constructor
  · refine ⟨f { staticAllocationFailureNode with identifier := selfId }, ?_, ?_⟩
    · exact List.mem_append_right _ (by simp)
    · rw [(hf _).1]
  · intro n hn hni
    rcases List.mem_append.mp hn with h | h
    · exact absurd hni ((idCount_eq_zero_iff l3 selfId).mp h0 n h)
    · rw [List.mem_singleton.mp h, (hf _).2]
      rfl

/-- C1: `replaceWithAllocationFailure` substitutes the sentinel under the
*original* identifier: afterwards that identifier still resolves, and the
record it resolves to reports `isAllocationFailure`, with no new identifier
involved. -/
theorem claim_C1_failure_preserves_identifier (pl : TreePool) (selfId : Int)
    (hc : idCount pl.nodes selfId = 1) :
    TreeReference.isAllocationFailure
        (TreeReference.replaceWithAllocationFailure pl selfId).nodes selfId
      = true ∧
    (findRecord
        (TreeReference.replaceWithAllocationFailure pl selfId).nodes
        selfId).isSome := by
  have hex : ∃ n ∈ pl.nodes, n.identifier = selfId := by
    have hpos : 0 < idCount pl.nodes selfId := by omega
    rw [idCount, List.count_pos_iff] at hpos
    obtain ⟨n, hn, hni⟩ := List.mem_map.mp hpos
    exact ⟨n, hn, hni⟩
  obtain ⟨selfIdx, hidx⟩ : ∃ k, indexOfId pl.nodes selfId = some k :=
    Option.isSome_iff_exists.mp ((indexOfId_isSome_iff pl.nodes selfId).mpr hex)
  suffices hres : ResolvesToFailure
      (TreeReference.replaceWithAllocationFailure pl selfId).nodes selfId by
    exact hres.conclusion
  simp only [TreeReference.replaceWithAllocationFailure, hidx]
  have hc1 : idCount (move pl.nodes selfIdx pl.nodes.length) selfId = 1 := by
    rw [idCount_perm (move_perm pl.nodes selfIdx pl.nodes.length) selfId]
    exact hc
  cases hp : parentIndex pl.nodes selfIdx with
  | none =>
    simp only [Option.map_none']
    obtain ⟨idx1, hidx1⟩ : ∃ k,
        indexOfId (move pl.nodes selfIdx pl.nodes.length) selfId = some k := by
      refine Option.isSome_iff_exists.mp
        ((indexOfId_isSome_iff _ selfId).mpr ?_)
      have hpos : 0 < idCount (move pl.nodes selfIdx pl.nodes.length)
          selfId := by omega
      rw [idCount, List.count_pos_iff] at hpos
      obtain ⟨n, hn, hni⟩ := List.mem_map.mp hpos
      exact ⟨n, hn, hni⟩
    simp only [releaseChildrenAndDestroy, hidx1]
    exact sentinelTail_resolves _ selfId pl.nextId
      (fun n => { n with referenceCounter :=
        (getRec pl.nodes selfIdx).referenceCounter })
      (fun n => ⟨rfl, rfl⟩)
      (idCount_removeBlock_zero hidx1 hc1)
  | some pIdx =>
    simp only [Option.map_some']
    have hc2 : idCount (decrementNumberOfChildren
        (move pl.nodes selfIdx pl.nodes.length)
        (getRec pl.nodes pIdx).identifier) selfId = 1 := by
      rw [decrementNumberOfChildren,
        idCount_modifyById
          (fun n => { n with numberOfChildren := n.numberOfChildren - 1 })
          (getRec pl.nodes pIdx).identifier selfId (fun _ => rfl)]
      exact hc1
    obtain ⟨idx2, hidx2⟩ : ∃ k,
        indexOfId (decrementNumberOfChildren
          (move pl.nodes selfIdx pl.nodes.length)
          (getRec pl.nodes pIdx).identifier) selfId = some k := by
      refine Option.isSome_iff_exists.mp
        ((indexOfId_isSome_iff _ selfId).mpr ?_)
      have hpos : 0 < idCount (decrementNumberOfChildren
          (move pl.nodes selfIdx pl.nodes.length)
          (getRec pl.nodes pIdx).identifier) selfId := by omega
      rw [idCount, List.count_pos_iff] at hpos
      obtain ⟨n, hn, hni⟩ := List.mem_map.mp hpos
      exact ⟨n, hn, hni⟩
    simp only [releaseChildrenAndDestroy, hidx2]
    refine ResolvesToFailure.addChildAtIndex _ _ _ _ ?_
    exact sentinelTail_resolves _ selfId pl.nextId
      (fun n => { n with referenceCounter :=
        (getRec pl.nodes selfIdx).referenceCounter - 1 })
      (fun n => ⟨rfl, rfl⟩)
      (idCount_removeBlock_zero hidx2 hc2)

/-- Concrete pool for the C1 witness: a parent (identifier 0) with one
child (identifier 1) that is replaced by the failure sentinel. -/
def c1pool : TreePool :=
  ⟨[⟨0, 1, 1, 0, false⟩, ⟨1, 2, 1, 0, false⟩, ⟨2, 1, 0, 0, false⟩], 3, -1⟩

/-- C1 witness: after the protocol at a concrete pool, identifier 1 still
resolves and reports failure. -/
theorem claim_C1_witness :
    TreeReference.isAllocationFailure
        (TreeReference.replaceWithAllocationFailure c1pool 1).nodes 1
      = true ∧
    (findRecord
        (TreeReference.replaceWithAllocationFailure c1pool 1).nodes
        1).isSome :=
  claim_C1_failure_preserves_identifier c1pool 1 (by decide)

/-- Concrete pool for the C8 witness: the canonical sentinel (identifier 0)
and a two-record subtree rooted at identifier 1. -/
def c8pool : TreePool :=
  ⟨[⟨0, 1, 0, 0, true⟩, ⟨1, 1, 1, 0, false⟩, ⟨2, 1, 0, 0, false⟩], 3, 0⟩

/-- C8 witness: both clone behaviours at a concrete pool. -/
theorem claim_C8_witness :
    ((TreeReference.clone c8pool 0).1 = c8pool.allocationFailureNodeId ∧
      (TreeReference.clone c8pool 0).2.nodes.length = c8pool.nodes.length) ∧
    ∃ B, (TreeReference.clone c8pool 1).2.nodes = c8pool.nodes ++ B ∧
      B.map (fun n => (n.treeTag, n.numberOfChildren))
        = ((c8pool.nodes.drop 1).take (treeLen (c8pool.nodes.drop 1))).map
          (fun n => (n.treeTag, n.numberOfChildren)) ∧
      ∀ m ∈ B, ∀ o ∈ (c8pool.nodes.drop 1).take
          (treeLen (c8pool.nodes.drop 1)), m.identifier ≠ o.identifier := by
  have h := claim_C8_clone_sentinel_or_deepcopy
  exact ⟨h.1 c8pool 0 0 0 (by decide) (by decide) (by decide),
    h.2 c8pool 1 1 (by decide) (by decide) (by decide)⟩

/-! ## C6: helper lemmas -/

theorem parentIndexGo_lt {l : List TreeNode} {idx : Nat} :
    ∀ {fuel j : Nat}, parentIndexGo l idx fuel = some j → j < idx := by
  intro fuel
  induction fuel with
  | zero => intro j h; simp [parentIndexGo] at h
  | succ f ih =>
    intro j h
    rw [parentIndexGo] at h
    by_cases hcond : idx < f + treeLen (l.drop f) ∧ f < idx
    · rw [if_pos hcond] at h
      cases h
      exact hcond.2
    · rw [if_neg hcond] at h
      exact ih h

theorem parentIndex_lt {l : List TreeNode} {idx j : Nat}
    (h : parentIndex l idx = some j) : j < idx :=
  parentIndexGo_lt h

theorem getRec_mem {l : List TreeNode} {idx : Nat} (h : idx < l.length) :
    getRec l idx ∈ l := by
  have hg : getRec l idx = l[idx] := by
    simp [getRec, List.getD_eq_getElem?_getD, List.getElem?_eq_getElem h]
  rw [hg]
  exact List.getElem_mem h

theorem findRecord_append_left_of_isSome {A : List TreeNode} {i : Int}
    (h : (findRecord A i).isSome) (B : List TreeNode) :
    findRecord (A ++ B) i = findRecord A i := by
  induction A with
  | nil => simp [findRecord] at h
  | cons a rest ih =>
    by_cases ha : a.identifier = i
    · rw [List.cons_append]
      show (if a.identifier = i then some a else findRecord (rest ++ B) i)
        = if a.identifier = i then some a else findRecord rest i
      rw [if_pos ha, if_pos ha]
    · rw [findRecord, if_neg ha] at h
      rw [List.cons_append]
      show (if a.identifier = i then some a else findRecord (rest ++ B) i)
        = if a.identifier = i then some a else findRecord rest i
      rw [if_neg ha, if_neg ha, ih h]

theorem findRecord_of_getRec {X : List TreeNode} {pIdx : Nat} {pid : Int}
    (hlt : pIdx < X.length) (hid : (getRec X pIdx).identifier = pid)
    (hc : idCount X pid ≤ 1) : findRecord X pid = some (getRec X pIdx) := by
  have hmem : getRec X pIdx ∈ X := getRec_mem hlt
  have hsome : (findRecord X pid).isSome :=
    (findRecord_isSome_iff X pid).mpr ⟨_, hmem, hid⟩
  cases hf : findRecord X pid with
  | none => rw [hf] at hsome; simp at hsome
  | some m =>
    obtain ⟨hm, hmi⟩ := findRecord_some X pid hf
    exact congrArg some (rec_unique_of_idCount hc hm hmem hmi hid)

theorem length_modifyById (f : TreeNode → TreeNode) (i : Int)
    (l : List TreeNode) : (modifyById f i l).length = l.length := by
  simp [modifyById]

/-- Reclaiming a complete subtree that sits at the very end of the pool
removes exactly its block. -/
theorem releaseCAD_flat_tail (P : List TreeNode) (n0 : TreeNode)
    (cs : List STree) (i : Int) (hfree : ∀ m ∈ P, m.identifier ≠ i)
    (hroot : n0.identifier = i)
    (hwf : STree.wfb (.mk n0 cs) = true) :
    releaseChildrenAndDestroy (P ++ STree.flat (.mk n0 cs)) i = P := by
  have hflat : STree.flat (.mk n0 cs) = n0 :: forestFlat cs := rfl
  have hidx : indexOfId (P ++ STree.flat (.mk n0 cs)) i = some P.length := by
    rw [hflat]
    exact indexOfId_append_of_prefix_free P n0 (forestFlat cs) i hfree hroot
  simp only [releaseChildrenAndDestroy, hidx]
  rw [removeBlock, List.take_left' rfl, List.drop_left' rfl,
    treeLen_flat _ hwf]
  rw [List.drop_eq_nil_of_le (by simp), List.append_nil]

/-- No-parent case of the retain-count restoration: the sentinel keeps the
captured count unchanged. -/
theorem replaceWAF_rc_no_parent (pl : TreePool) (selfId : Int) (selfIdx : Nat)
    (hidx : indexOfId pl.nodes selfId = some selfIdx)
    (hp : parentIndex pl.nodes selfIdx = none)
    (hc : idCount pl.nodes selfId = 1) :
    retainCountOf
        (TreeReference.replaceWithAllocationFailure pl selfId).nodes selfId
      = retainCountOf pl.nodes selfId := by
  have hfr : findRecord pl.nodes selfId = some (getRec pl.nodes selfIdx) := by
    rw [findRecord_eq_indexOfId, hidx, Option.map_some']
  have hc1 : idCount (move pl.nodes selfIdx pl.nodes.length) selfId = 1 := by
    rw [idCount_perm (move_perm pl.nodes selfIdx pl.nodes.length) selfId]
    exact hc
  obtain ⟨idx1, hidx1⟩ : ∃ k,
      indexOfId (move pl.nodes selfIdx pl.nodes.length) selfId = some k := by
    refine Option.isSome_iff_exists.mp
      ((indexOfId_isSome_iff _ selfId).mpr ?_)
    have hpos : 0 < idCount (move pl.nodes selfIdx pl.nodes.length)
        selfId := by omega
    rw [idCount, List.count_pos_iff] at hpos
    obtain ⟨n, hn, hni⟩ := List.mem_map.mp hpos
    exact ⟨n, hn, hni⟩
  have h3 := idCount_removeBlock_zero hidx1 hc1
  simp only [TreeReference.replaceWithAllocationFailure, hidx, hp,
    Option.map_none', releaseChildrenAndDestroy, hidx1,
    modifyAt_append_singleton]
  show retainCountOf
      (removeBlock (move pl.nodes selfIdx pl.nodes.length) idx1
        ++ [_]) selfId = _
  rw [retainCountOf, findRecord_append_of_prefix_free _ _ _
    ((idCount_eq_zero_iff _ _).mp h3)]
  rw [retainCountOf, hfr]
  simp [findRecord]

/-- Reattaching the renamed sentinel (the sole record carrying `selfId`,
sitting at the end of the pool) under a live non-sentinel parent retains it
exactly once. -/
theorem addChild_rc_of_sentinel (pl2 : TreePool) (P : List TreeNode)
    (s2 : TreeNode) (pid selfId index : Int) {pr : TreeNode}
    (hn : pl2.nodes = P ++ [s2])
    (hsid : s2.identifier = selfId)
    (hfreeP : ∀ m ∈ P, m.identifier ≠ selfId)
    (hpid_ne : selfId ≠ pid)
    (hfindP : findRecord P pid = some pr)
    (hprflag : pr.isAllocationFailure = false) :
    retainCountOf
        (TreeReference.addChildAtIndex pl2 pid selfId index).nodes selfId
      = some (s2.referenceCounter + 1) := by
  have hfind2 : findRecord pl2.nodes pid = some pr := by
    rw [hn, findRecord_append_left_of_isSome (by rw [hfindP]; rfl) [s2]]
    exact hfindP
  cases h6 : indexOfId pl2.nodes pid with
  | none =>
    rw [findRecord_eq_indexOfId, h6] at hfind2
    simp at hfind2
  | some k =>
    have hgk : getRec pl2.nodes k = pr := by
      have h := findRecord_eq_indexOfId pl2.nodes pid
      rw [h6, Option.map_some', hfind2] at h
      exact (Option.some_injective _ h).symm
    have hbumpid : ({ s2 with referenceCounter := s2.referenceCounter + 1 }
        : TreeNode).identifier = selfId := hsid
    have h_l7 : retain pl2.nodes selfId
        = P ++ [{ s2 with referenceCounter := s2.referenceCounter + 1 }] := by
      rw [hn, retain, modifyById_append, modifyById_cons, if_pos hsid]
      rw [show modifyById (fun n : TreeNode =>
        { n with referenceCounter := n.referenceCounter + 1 }) selfId P = P
        from modifyById_of_free _ _ hfreeP]
      rfl
    have hcount : idCount
        (P ++ [{ s2 with referenceCounter := s2.referenceCounter + 1 }])
        selfId = 1 := by
      rw [idCount_append, (idCount_eq_zero_iff P selfId).mpr hfreeP,
        idCount_cons, if_pos hbumpid]
      rfl
    have hfind7 : findRecord
        (P ++ [{ s2 with referenceCounter := s2.referenceCounter + 1 }])
        selfId
        = some { s2 with referenceCounter := s2.referenceCounter + 1 } := by
      rw [findRecord_append_of_prefix_free _ _ _ hfreeP, findRecord,
        if_pos hbumpid]
    have h8 : indexOfId
        (P ++ [{ s2 with referenceCounter := s2.referenceCounter + 1 }])
        selfId = some P.length :=
      indexOfId_append_of_prefix_free P _ [] selfId hfreeP hbumpid
    simp only [TreeReference.addChildAtIndex, h6, hgk, hprflag,
      Bool.false_eq_true, if_false, h_l7, h8]
    show retainCountOf (incrementNumberOfChildren _ pid) selfId = _
    rw [retainCountOf, incrementNumberOfChildren, findRecord_modifyById
      (fun n : TreeNode =>
        { n with numberOfChildren := n.numberOfChildren + 1 })
      pid (fun _ => rfl) _ selfId, if_neg hpid_ne]
    rw [findRecord_perm (move_perm _ P.length _) selfId
      (by rw [idCount_perm (move_perm _ P.length _) selfId, hcount]),
      hfind7]
    rfl

/-- Parent case of the retain-count restoration: the sentinel is created
with the captured count less one, and reattachment's retain brings the
effective count back to the captured value. -/
theorem replaceWAF_rc_with_parent (pl : TreePool) (X Z : List TreeNode)
    (n0 : TreeNode) (cs : List STree) (pIdx : Nat)
    (hpl : pl.nodes = X ++ (STree.flat (.mk n0 cs) ++ Z))
    (hwf : STree.wfb (.mk n0 cs) = true)
    (hp : parentIndex pl.nodes X.length = some pIdx)
    (hc : idCount pl.nodes n0.identifier = 1)
    (hcp : idCount pl.nodes (getRec pl.nodes pIdx).identifier = 1)
    (hpfl : (getRec pl.nodes pIdx).isAllocationFailure = false) :
    retainCountOf
        (TreeReference.replaceWithAllocationFailure pl n0.identifier).nodes
        n0.identifier
      = retainCountOf pl.nodes n0.identifier := by
  have hflat : STree.flat (.mk n0 cs) = n0 :: forestFlat cs := rfl
  have hshape : pl.nodes = X ++ (n0 :: (forestFlat cs ++ Z)) := by
    rw [hpl, hflat, List.cons_append]
  have hpltX : pIdx < X.length := parentIndex_lt hp
  have hpidrec : getRec pl.nodes pIdx = getRec X pIdx := by
    rw [hpl]
    exact getRec_append_left X _ pIdx hpltX
  rw [hpidrec] at hcp hpfl
  have hcX : idCount X n0.identifier = 0
      ∧ idCount (forestFlat cs) n0.identifier = 0
      ∧ idCount Z n0.identifier = 0 := by
    rw [hshape, idCount_append, idCount_cons, if_pos rfl,
      idCount_append] at hc
    omega
  have hmemp : getRec X pIdx ∈ X := getRec_mem hpltX
  have hposp : 0 < idCount X (getRec X pIdx).identifier :=
    idCount_pos_of_mem hmemp rfl
  have hcP : idCount X (getRec X pIdx).identifier = 1
      ∧ n0.identifier ≠ (getRec X pIdx).identifier
      ∧ idCount (forestFlat cs) (getRec X pIdx).identifier = 0
      ∧ idCount Z (getRec X pIdx).identifier = 0 := by
    rw [hshape, idCount_append, idCount_cons, idCount_append] at hcp
    by_cases hnp : n0.identifier = (getRec X pIdx).identifier
    · rw [if_pos hnp] at hcp
      omega
    · rw [if_neg hnp] at hcp
      exact ⟨by omega, hnp, by omega, by omega⟩
  have hidx : indexOfId pl.nodes n0.identifier = some X.length := by
    rw [hshape]
    exact indexOfId_append_of_prefix_free X n0 _ _
      ((idCount_eq_zero_iff X _).mp hcX.1) rfl
  have hcap : getRec pl.nodes X.length = n0 := by
    rw [hshape]
    exact getRec_append X n0 _
  have hB : treeLen (STree.flat (.mk n0 cs) ++ Z)
      = (STree.flat (.mk n0 cs)).length := treeLen_flat_append _ hwf Z
  have h_move : move pl.nodes X.length pl.nodes.length
      = X ++ (Z ++ STree.flat (.mk n0 cs)) := by
    conv_lhs => rw [hpl]
    exact move_to_end X _ Z hB (STree.flat_ne_nil _)
  have hflatfree : ∀ m ∈ STree.flat (.mk n0 cs),
      m.identifier ≠ (getRec X pIdx).identifier := by
    intro m hm
    rw [hflat] at hm
    rcases List.mem_cons.mp hm with rfl | hm2
    · exact hcP.2.1
    · exact (idCount_eq_zero_iff _ _).mp hcP.2.2.1 m hm2
  have h_dec : decrementNumberOfChildren
      (X ++ (Z ++ STree.flat (.mk n0 cs))) (getRec X pIdx).identifier
      = decrementNumberOfChildren X (getRec X pIdx).identifier
        ++ (decrementNumberOfChildren Z (getRec X pIdx).identifier
          ++ STree.flat (.mk n0 cs)) := by
    rw [decrementNumberOfChildren, modifyById_append, modifyById_append,
      modifyById_of_free _ _ hflatfree]
    rfl
  have hfreeXZ : ∀ m ∈ decrementNumberOfChildren X (getRec X pIdx).identifier
      ++ decrementNumberOfChildren Z (getRec X pIdx).identifier,
      m.identifier ≠ n0.identifier := by
    refine (idCount_eq_zero_iff _ _).mp ?_
    rw [idCount_append, decrementNumberOfChildren, decrementNumberOfChildren,
      idCount_modifyById
        (fun n => { n with numberOfChildren := n.numberOfChildren - 1 })
        (getRec X pIdx).identifier n0.identifier (fun _ => rfl),
      idCount_modifyById
        (fun n => { n with numberOfChildren := n.numberOfChildren - 1 })
        (getRec X pIdx).identifier n0.identifier (fun _ => rfl)]
    omega
  have h_cad : releaseChildrenAndDestroy
      (decrementNumberOfChildren X (getRec X pIdx).identifier
        ++ (decrementNumberOfChildren Z (getRec X pIdx).identifier
          ++ STree.flat (.mk n0 cs))) n0.identifier
      = decrementNumberOfChildren X (getRec X pIdx).identifier
        ++ decrementNumberOfChildren Z (getRec X pIdx).identifier := by
    rw [← List.append_assoc]
    exact releaseCAD_flat_tail _ n0 cs _ hfreeXZ rfl hwf
  simp only [TreeReference.replaceWithAllocationFailure, hidx, hp,
    Option.map_some']
  rw [hpidrec, hcap, h_move, h_dec, h_cad, modifyAt_append_singleton,
    modifyAt_append_singleton]
  have hfindX : findRecord
      (decrementNumberOfChildren X (getRec X pIdx).identifier)
      (getRec X pIdx).identifier
      = (findRecord X (getRec X pIdx).identifier).map
          (fun n => { n with numberOfChildren := n.numberOfChildren - 1 }) := by
    rw [decrementNumberOfChildren, findRecord_modifyById
      (fun n => { n with numberOfChildren := n.numberOfChildren - 1 })
      (getRec X pIdx).identifier (fun _ => rfl) X (getRec X pIdx).identifier,
      if_pos rfl]
  have hfindX2 : findRecord X (getRec X pIdx).identifier
      = some (getRec X pIdx) :=
    findRecord_of_getRec hpltX rfl (by omega)
  have hfindP : findRecord
      (decrementNumberOfChildren X (getRec X pIdx).identifier
        ++ decrementNumberOfChildren Z (getRec X pIdx).identifier)
      (getRec X pIdx).identifier
      = some ((fun n : TreeNode =>
          { n with numberOfChildren := n.numberOfChildren - 1 })
          (getRec X pIdx)) := by
    rw [findRecord_append_left_of_isSome
      (by rw [hfindX, hfindX2]; rfl) _, hfindX, hfindX2, Option.map_some']
  refine Eq.trans (addChild_rc_of_sentinel _ _ _ _ _ _ rfl rfl hfreeXZ
    (fun h => hcP.2.1 h) hfindP hpfl) ?_
  show some ((n0.referenceCounter - 1) + 1) = _
  rw [retainCountOf, findRecord_eq_indexOfId, hidx, Option.map_some', hcap]
  show _ = some n0.referenceCounter
  congr 1
  omega

/-- C6: the allocation-failure protocol restores the retain count — with a
parent, the sentinel is written with the captured count less one and the
reattachment retain brings the effective count back to the captured value;
without a parent the captured count is kept unchanged.  In both cases the
node's retain count after the protocol equals the captured one. -/
theorem claim_C6_retain_count_restored :
    (∀ (pl : TreePool) (selfId : Int) (selfIdx : Nat),
      indexOfId pl.nodes selfId = some selfIdx →
      parentIndex pl.nodes selfIdx = none →
      idCount pl.nodes selfId = 1 →
      retainCountOf
          (TreeReference.replaceWithAllocationFailure pl selfId).nodes selfId
        = retainCountOf pl.nodes selfId) ∧
    (∀ (pl : TreePool) (X Z : List TreeNode) (n0 : TreeNode)
      (cs : List STree) (pIdx : Nat),
      pl.nodes = X ++ (STree.flat (.mk n0 cs) ++ Z) →
      STree.wfb (.mk n0 cs) = true →
      parentIndex pl.nodes X.length = some pIdx →
      idCount pl.nodes n0.identifier = 1 →
      idCount pl.nodes (getRec pl.nodes pIdx).identifier = 1 →
      (getRec pl.nodes pIdx).isAllocationFailure = false →
      retainCountOf
          (TreeReference.replaceWithAllocationFailure pl n0.identifier).nodes
          n0.identifier
        = retainCountOf pl.nodes n0.identifier) :=
  ⟨replaceWAF_rc_no_parent, replaceWAF_rc_with_parent⟩

/-- Concrete pools for the C6 witness. -/
def c6pool : TreePool := ⟨[⟨0, 1, 1, 0, false⟩, ⟨1, 2, 0, 0, false⟩], 2, -1⟩

def c6pool2 : TreePool := ⟨[⟨0, 3, 0, 0, false⟩], 1, -1⟩

/-- C6 witness: the retain count survives the protocol at concrete pools,
with and without a parent. -/
theorem claim_C6_witness :
    retainCountOf
        (TreeReference.replaceWithAllocationFailure c6pool 1).nodes 1
      = retainCountOf c6pool.nodes 1 ∧
    retainCountOf
        (TreeReference.replaceWithAllocationFailure c6pool2 0).nodes 0
      = retainCountOf c6pool2.nodes 0 := by
  have h := claim_C6_retain_count_restored
  constructor
  · exact h.2 c6pool [⟨0, 1, 1, 0, false⟩] [] ⟨1, 2, 0, 0, false⟩ [] 0
      (by simp [c6pool, STree.flat, forestFlat])
      (by simp [STree.wfb, forestWfb])
      (by decide) (by decide) (by decide) (by decide)
  · exact h.1 c6pool2 0 0 (by decide) (by decide) (by decide)

/-! ## C7: addChildAtIndex -/

theorem idCount_sublist_le {A l : List TreeNode} (h : A.Sublist l) (i : Int) :
    idCount A i ≤ idCount l i :=
  (h.map TreeNode.identifier).count_le i

theorem idCount_split_one {A B : List TreeNode} {b : TreeNode} {i : Int}
    (hb : b.identifier = i) (h : idCount (A ++ b :: B) i = 1) :
    idCount A i = 0 ∧ idCount B i = 0 := by
  rw [idCount_append, idCount_cons, if_pos hb] at h
  omega

theorem forestWfb_take (gs : List STree) (i : Nat)
    (h : forestWfb gs = true) : forestWfb (gs.take i) = true := by
  have h2 := forestWfb_append (gs.take i) (gs.drop i)
  rw [List.take_append_drop] at h2
  rw [h] at h2
  exact ((Bool.and_eq_true _ _).mp h2.symm).1

/-- Resolving child `ts.length` of a node whose first `ts.length` children
serialise to `forestFlat ts` lands exactly on the record `b` that follows
them. -/
theorem treeChildAtIndex_fst (pl2 : TreePool) (A : List TreeNode)
    (b0 b : TreeNode) (ts : List STree) (r : List TreeNode) (selfId : Int)
    (hn : pl2.nodes = A ++ (b0 :: (forestFlat ts ++ (b :: r))))
    (hfreeA : ∀ m ∈ A, m.identifier ≠ selfId)
    (hb0 : b0.identifier = selfId)
    (hwf : forestWfb ts = true) :
    (TreeReference.treeChildAtIndex pl2 selfId ts.length).1 = b.identifier := by
  have hidx2 : indexOfId pl2.nodes selfId = some A.length := by
    rw [hn]
    exact indexOfId_append_of_prefix_free A b0 _ selfId hfreeA hb0
  have hwalk2 : walkSiblings pl2.nodes (A.length + 1) ts.length
      = A.length + 1 + (forestFlat ts).length := by
    have h := walkSiblings_forest ts.length (A ++ [b0]) ts (b :: r) hwf
      (Nat.le_refl _)
    rw [hn]
    simpa [List.append_assoc, List.length_append] using h
  have hget2 : getRec pl2.nodes (A.length + 1 + (forestFlat ts).length)
      = b := by
    rw [hn, show A ++ (b0 :: (forestFlat ts ++ (b :: r)))
        = (A ++ b0 :: forestFlat ts) ++ b :: r by simp,
      show A.length + 1 + (forestFlat ts).length
        = (A ++ b0 :: forestFlat ts).length by simp; omega]
    exact getRec_append _ _ _
  simp only [TreeReference.treeChildAtIndex, hidx2, hwalk2, hget2,
    TreeReference.setIdentifierAndRetain]

/-- C7: for a non-sentinel parent, `addChildAtIndex(c, i)` retains `c`,
walks `i` sibling boundaries from the first-child position, moves `c`'s
subtree there in one arena move, and counts one more child — so `childAt(i)`
then resolves to `c`'s identifier and `numberOfChildren` grew by one. -/
theorem claim_C7_addChildAtIndex (pl : TreePool) (X Y Z : List TreeNode)
    (n0 cRec : TreeNode) (gs cs : List STree) (i : Nat)
    (hpl : pl.nodes
      = X ++ (n0 :: (forestFlat gs ++ (Y ++ ((cRec :: forestFlat cs) ++ Z)))))
    (hwfg : forestWfb gs = true)
    (hwfc : STree.wfb (.mk cRec cs) = true)
    (hcc : n0.numberOfChildren = (gs.length : Int))
    (hnfl : n0.isAllocationFailure = false)
    (hi : i ≤ gs.length)
    (hcS : idCount pl.nodes n0.identifier = 1)
    (hcC : idCount pl.nodes cRec.identifier = 1) :
    (TreeReference.addChildAtIndex pl n0.identifier cRec.identifier
        (i : Int)).nodes
      = X ++ ({ n0 with numberOfChildren := n0.numberOfChildren + 1 }
          :: (forestFlat (gs.take i)
            ++ (({ cRec with referenceCounter := cRec.referenceCounter + 1 }
                :: forestFlat cs)
              ++ (forestFlat (gs.drop i) ++ (Y ++ Z))))) ∧
    (TreeReference.treeChildAtIndex
        (TreeReference.addChildAtIndex pl n0.identifier cRec.identifier
          (i : Int)) n0.identifier i).1 = cRec.identifier ∧
    TreeReference.numberOfChildren
        (TreeReference.addChildAtIndex pl n0.identifier cRec.identifier
          (i : Int)).nodes n0.identifier
      = n0.numberOfChildren + 1 ∧
    retainCountOf
        (TreeReference.addChildAtIndex pl n0.identifier cRec.identifier
          (i : Int)).nodes cRec.identifier
      = some (cRec.referenceCounter + 1) := by
  have hplc : pl.nodes = (X ++ (n0 :: (forestFlat gs ++ Y)))
      ++ (cRec :: (forestFlat cs ++ Z)) := by
    rw [hpl]
    simp [List.append_assoc]
  have hcS2 := hcS
  rw [hpl] at hcS2
  obtain ⟨hSX, hSrest⟩ := idCount_split_one rfl hcS2
  have hfreeX_S : ∀ m ∈ X, m.identifier ≠ n0.identifier :=
    (idCount_eq_zero_iff _ _).mp hSX
  have hfreeR_S : ∀ m ∈ forestFlat gs ++ (Y ++ ((cRec :: forestFlat cs) ++ Z)),
      m.identifier ≠ n0.identifier :=
    (idCount_eq_zero_iff _ _).mp hSrest
  have hcC2 := hcC
  rw [hplc] at hcC2
  obtain ⟨hCpre, hCsuf⟩ := idCount_split_one rfl hcC2
  have hfreePre_C : ∀ m ∈ X ++ (n0 :: (forestFlat gs ++ Y)),
      m.identifier ≠ cRec.identifier :=
    (idCount_eq_zero_iff _ _).mp hCpre
  have hfreeSuf_C : ∀ m ∈ forestFlat cs ++ Z,
      m.identifier ≠ cRec.identifier :=
    (idCount_eq_zero_iff _ _).mp hCsuf
  have hidx : indexOfId pl.nodes n0.identifier = some X.length := by
    rw [hpl]
    exact indexOfId_append_of_prefix_free X n0 _ _ hfreeX_S rfl
  have hn0get : getRec pl.nodes X.length = n0 := by
    rw [hpl]
    exact getRec_append X n0 _
  have h_l1 : retain pl.nodes cRec.identifier
      = X ++ (n0 :: (forestFlat gs
        ++ (Y ++ (({ cRec with referenceCounter := cRec.referenceCounter + 1 }
            :: forestFlat cs) ++ Z)))) := by
    rw [hplc, retain, modifyById_append, modifyById_cons, if_pos rfl,
      modifyById_of_free _ _ hfreePre_C]
    rw [show modifyById (fun n : TreeNode =>
        { n with referenceCounter := n.referenceCounter + 1 })
        cRec.identifier (forestFlat cs ++ Z) = forestFlat cs ++ Z
      from modifyById_of_free _ _ hfreeSuf_C]
    simp [List.append_assoc]
  have hsplitFG : forestFlat gs
      = forestFlat (gs.take i) ++ forestFlat (gs.drop i) := by
    rw [← forestFlat_append, List.take_append_drop]
  have hwalk : walkSiblings
      (X ++ (n0 :: (forestFlat gs
        ++ (Y ++ (({ cRec with referenceCounter := cRec.referenceCounter + 1 }
            :: forestFlat cs) ++ Z)))))
      (X.length + 1) i
      = X.length + 1 + (forestFlat (gs.take i)).length := by
    have h := walkSiblings_forest i (X ++ [n0]) gs
      (Y ++ (({ cRec with referenceCounter := cRec.referenceCounter + 1 }
        :: forestFlat cs) ++ Z)) hwfg hi
    simpa [List.append_assoc, List.length_append] using h
  have htidx : indexOfId
      (X ++ (n0 :: (forestFlat gs
        ++ (Y ++ (({ cRec with referenceCounter := cRec.referenceCounter + 1 }
            :: forestFlat cs) ++ Z)))))
      cRec.identifier
      = some (X.length + ((forestFlat gs).length + Y.length + 1)) := by
    have h := indexOfId_append_of_prefix_free
      (X ++ (n0 :: (forestFlat gs ++ Y)))
      { cRec with referenceCounter := cRec.referenceCounter + 1 }
      (forestFlat cs ++ Z) cRec.identifier hfreePre_C rfl
    simpa [List.append_assoc, List.length_append] using h
  have hwfc2 : STree.wfb (.mk { cRec with
      referenceCounter := cRec.referenceCounter + 1 } cs) = true := by
    simp only [STree.wfb] at hwfc ⊢
    exact hwfc
  have hB : treeLen (({ cRec with
      referenceCounter := cRec.referenceCounter + 1 } :: forestFlat cs) ++ Z)
      = ({ cRec with referenceCounter := cRec.referenceCounter + 1 }
          :: forestFlat cs).length := by
    have h := treeLen_flat_append (.mk { cRec with
      referenceCounter := cRec.referenceCounter + 1 } cs) hwfc2 Z
    simpa [STree.flat] using h
  have hfree2_S : ∀ m ∈ ({ cRec with
      referenceCounter := cRec.referenceCounter + 1 } :: forestFlat cs)
        ++ (forestFlat (gs.drop i) ++ Y ++ Z),
      m.identifier ≠ n0.identifier := by
    intro m hm
    rcases List.mem_append.mp hm with h | h
    · rcases List.mem_cons.mp h with rfl | h2
      · exact fun hh => hfreePre_C n0 (by simp) (by rw [← hh])
      · exact hfreeR_S m (by simp [h2])
    · rcases List.mem_append.mp h with h2 | h2
      · rcases List.mem_append.mp h2 with h3 | h3
        · refine hfreeR_S m ?_
          have : m ∈ forestFlat gs := by
            rw [hsplitFG]
            exact List.mem_append_right _ h3
          simp [this]
        · exact hfreeR_S m (by simp [h3])
      · exact hfreeR_S m (by simp [h2])
  have hfree3_S : ∀ m ∈ forestFlat (gs.take i),
      m.identifier ≠ n0.identifier := by
    intro m hm
    refine hfreeR_S m ?_
    have : m ∈ forestFlat gs := by
      rw [hsplitFG]
      exact List.mem_append_left _ hm
    simp [this]
  have hmove : move
      (X ++ (n0 :: (forestFlat gs
        ++ (Y ++ (({ cRec with referenceCounter := cRec.referenceCounter + 1 }
            :: forestFlat cs) ++ Z)))))
      (X.length + ((forestFlat gs).length + Y.length + 1))
      (X.length + 1 + (forestFlat (gs.take i)).length)
      = (X ++ (n0 :: forestFlat (gs.take i)))
        ++ ((({ cRec with referenceCounter := cRec.referenceCounter + 1 }
            :: forestFlat cs))
          ++ ((forestFlat (gs.drop i) ++ Y) ++ Z)) := by
    have h := move_block_left (X ++ (n0 :: forestFlat (gs.take i)))
      (forestFlat (gs.drop i) ++ Y)
      ({ cRec with referenceCounter := cRec.referenceCounter + 1 }
        :: forestFlat cs) Z hB
    have e1 : (X ++ (n0 :: forestFlat (gs.take i)))
        ++ ((forestFlat (gs.drop i) ++ Y)
          ++ (({ cRec with referenceCounter := cRec.referenceCounter + 1 }
              :: forestFlat cs) ++ Z))
        = X ++ (n0 :: (forestFlat gs
          ++ (Y ++ (({ cRec with
              referenceCounter := cRec.referenceCounter + 1 }
            :: forestFlat cs) ++ Z)))) := by
      rw [hsplitFG]
      simp [List.append_assoc]
    have e2 : (X ++ (n0 :: forestFlat (gs.take i))).length
        + (forestFlat (gs.drop i) ++ Y).length
        = X.length + ((forestFlat gs).length + Y.length + 1) := by
      simp only [List.length_append, List.length_cons, hsplitFG]
      omega
    have e3 : (X ++ (n0 :: forestFlat (gs.take i))).length
        = X.length + 1 + (forestFlat (gs.take i)).length := by
      simp only [List.length_append, List.length_cons]
      omega
    rw [e1, e2, e3] at h
    exact h
  have hinc : incrementNumberOfChildren
      ((X ++ (n0 :: forestFlat (gs.take i)))
        ++ ((({ cRec with referenceCounter := cRec.referenceCounter + 1 }
            :: forestFlat cs))
          ++ ((forestFlat (gs.drop i) ++ Y) ++ Z)))
      n0.identifier
      = X ++ ({ n0 with numberOfChildren := n0.numberOfChildren + 1 }
          :: (forestFlat (gs.take i)
            ++ (({ cRec with referenceCounter := cRec.referenceCounter + 1 }
                :: forestFlat cs)
              ++ (forestFlat (gs.drop i) ++ (Y ++ Z))))) := by
    rw [incrementNumberOfChildren, modifyById_append, modifyById_append,
      modifyById_cons, if_pos rfl, modifyById_of_free _ _ hfreeX_S,
      modifyById_of_free _ _ hfree3_S,
      show modifyById (fun n : TreeNode =>
          { n with numberOfChildren := n.numberOfChildren + 1 })
        n0.identifier
        ((({ cRec with referenceCounter := cRec.referenceCounter + 1 }
            :: forestFlat cs))
          ++ ((forestFlat (gs.drop i) ++ Y) ++ Z))
        = (({ cRec with referenceCounter := cRec.referenceCounter + 1 }
            :: forestFlat cs))
          ++ ((forestFlat (gs.drop i) ++ Y) ++ Z)
        from modifyById_of_free _ _ (by
          intro m hm
          refine hfree2_S m ?_
          rcases List.mem_append.mp hm with h | h
          · exact List.mem_append_left _ h
          · refine List.mem_append_right _ ?_
            rcases List.mem_append.mp h with h2 | h2
            · rcases List.mem_append.mp h2 with h3 | h3
              · exact List.mem_append_left _ (List.mem_append_left _ h3)
              · exact List.mem_append_left _ (List.mem_append_right _ h3)
            · exact List.mem_append_right _ h2)]
    simp [List.append_assoc]
  have h1 : (TreeReference.addChildAtIndex pl n0.identifier cRec.identifier
      (i : Int)).nodes
      = X ++ ({ n0 with numberOfChildren := n0.numberOfChildren + 1 }
          :: (forestFlat (gs.take i)
            ++ (({ cRec with referenceCounter := cRec.referenceCounter + 1 }
                :: forestFlat cs)
              ++ (forestFlat (gs.drop i) ++ (Y ++ Z))))) := by
    simp only [TreeReference.addChildAtIndex, hidx, hn0get, hnfl,
      Bool.false_eq_true, if_false, h_l1, Int.toNat_natCast, hwalk, htidx,
      hmove, hinc]
  refine ⟨h1, ?_, ?_, ?_⟩
  · have h2 := treeChildAtIndex_fst
      (TreeReference.addChildAtIndex pl n0.identifier cRec.identifier (i : Int))
      X { n0 with numberOfChildren := n0.numberOfChildren + 1 }
      { cRec with referenceCounter := cRec.referenceCounter + 1 }
      (gs.take i)
      (forestFlat cs ++ (forestFlat (gs.drop i) ++ (Y ++ Z)))
      n0.identifier (by rw [h1]; simp [List.append_assoc]) hfreeX_S rfl
      (forestWfb_take gs i hwfg)
    rw [show (gs.take i).length = i from by rw [List.length_take]; omega] at h2
    exact h2
  · rw [TreeReference.numberOfChildren, h1,
      findRecord_append_of_prefix_free _ _ _ hfreeX_S, findRecord,
      if_pos rfl]
  · rw [retainCountOf, h1,
      show X ++ ({ n0 with numberOfChildren := n0.numberOfChildren + 1 }
          :: (forestFlat (gs.take i)
            ++ (({ cRec with referenceCounter := cRec.referenceCounter + 1 }
                :: forestFlat cs)
              ++ (forestFlat (gs.drop i) ++ (Y ++ Z)))))
        = (X ++ { n0 with numberOfChildren := n0.numberOfChildren + 1 }
            :: forestFlat (gs.take i))
          ++ ({ cRec with referenceCounter := cRec.referenceCounter + 1 }
            :: (forestFlat cs ++ (forestFlat (gs.drop i) ++ (Y ++ Z))))
        from by simp [List.append_assoc]]
    rw [findRecord_append_of_prefix_free _ _ _ (by
      intro m hm
      rcases List.mem_append.mp hm with h | h
      · exact hfreePre_C m (by simp [h])
      · rcases List.mem_cons.mp h with rfl | h2
        · exact hfreePre_C n0 (by simp)
        · refine hfreePre_C m ?_
          have : m ∈ forestFlat gs := by
            rw [hsplitFG]
            exact List.mem_append_left _ h2
          simp [this])]
    rw [findRecord, if_pos rfl]
    rfl

/-- Concrete pool for the C7 witness: a childless live parent (id 0) and a
detached leaf (id 1) to be inserted at index 0. -/
def c7pool : TreePool := ⟨[⟨0, 1, 0, 0, false⟩, ⟨1, 1, 0, 0, false⟩], 2, -1⟩

/-- C7 witness: inserting node 1 under node 0 at index 0 splices it right
after the parent, `childAt(0)` resolves to it, the child count is 1, and its
retain count rose to 2. -/
theorem claim_C7_witness :
    (TreeReference.addChildAtIndex c7pool 0 1 0).nodes
      = [⟨0, 1, 1, 0, false⟩, ⟨1, 2, 0, 0, false⟩] ∧
    (TreeReference.treeChildAtIndex
        (TreeReference.addChildAtIndex c7pool 0 1 0) 0 0).1 = 1 ∧
    TreeReference.numberOfChildren
        (TreeReference.addChildAtIndex c7pool 0 1 0).nodes 0 = 1 ∧
    retainCountOf (TreeReference.addChildAtIndex c7pool 0 1 0).nodes 1
      = some 2 := by
  have h := claim_C7_addChildAtIndex c7pool [] [] []
      ⟨0, 1, 0, 0, false⟩ ⟨1, 1, 0, 0, false⟩ [] [] 0
      (by simp [c7pool, forestFlat]) (by decide) (by decide) (by decide)
      (by decide) (by decide) (by decide) (by decide)
  simpa [forestFlat] using h

/-! ## C4: swapChildren -/

theorem treeLen_cons_leaf (n : TreeNode) (rest : List TreeNode)
    (h : n.numberOfChildren = 0) : treeLen (n :: rest) = 1 := by
  simp [treeLen, subtreesLen, h]

theorem walkSiblings_forest_all (A : List TreeNode) (ts : List STree)
    (r : List TreeNode) (k : Nat) (hwf : forestWfb ts = true)
    (hk : k = ts.length) :
    walkSiblings (A ++ (forestFlat ts ++ r)) A.length k
      = A.length + (forestFlat ts).length := by
  subst hk
  rw [walkSiblings_forest ts.length A ts r hwf (Nat.le_refl _),
    List.take_length]

theorem idCount_swap_blocks (X FA FM W : List TreeNode)
    (n0 ra rb : TreeNode) (x : Int) :
    idCount (X ++ (n0 :: (FA ++ (rb :: (FM ++ (ra :: W)))))) x
      = idCount (X ++ (n0 :: (FA ++ (ra :: (FM ++ (rb :: W)))))) x := by
  simp only [idCount_append, idCount_cons]
  ring

/-- `swapChildren` on two LEAF children at ordinals `gsA.length` and
`gsA.length + 1 + gsM.length` of a live parent exchanges the two records:
for single-record subtrees the stale-address second move is harmless. -/
theorem swapChildren_leaf_swap (pl : TreePool) (X W : List TreeNode)
    (n0 ra rb : TreeNode) (gsA gsM : List STree)
    (hpl : pl.nodes
      = X ++ (n0 :: (forestFlat gsA ++ (ra :: (forestFlat gsM ++ (rb :: W))))))
    (hwfA : forestWfb gsA = true) (hwfM : forestWfb gsM = true)
    (hra : ra.numberOfChildren = 0) (hrb : rb.numberOfChildren = 0)
    (hcS : idCount pl.nodes n0.identifier = 1)
    (hcB : idCount pl.nodes rb.identifier = 1) :
    TreeReference.swapChildren pl n0.identifier (gsA.length : Int)
        ((gsA.length : Int) + 1 + (gsM.length : Int))
      = { pl with nodes := X ++ (n0 :: (forestFlat gsA
          ++ (rb :: (forestFlat gsM ++ (ra :: W))))) } := by
  have hcS2 := hcS
  rw [hpl] at hcS2
  obtain ⟨hSX, _⟩ := idCount_split_one rfl hcS2
  have hfreeX_S : ∀ m ∈ X, m.identifier ≠ n0.identifier :=
    (idCount_eq_zero_iff _ _).mp hSX
  have hidx : indexOfId pl.nodes n0.identifier = some X.length := by
    rw [hpl]
    exact indexOfId_append_of_prefix_free X n0 _ _ hfreeX_S rfl
  have hif : ((gsA.length : Int)
      = (gsA.length : Int) + 1 + (gsM.length : Int)) = False :=
    eq_false (by omega)
  have hmin : min ((gsA.length : Int))
      ((gsA.length : Int) + 1 + (gsM.length : Int)) = (gsA.length : Int) :=
    min_eq_left (by omega)
  have hmax : max ((gsA.length : Int))
      ((gsA.length : Int) + 1 + (gsM.length : Int))
      = (gsA.length : Int) + 1 + (gsM.length : Int) :=
    max_eq_right (by omega)
  have htoNat1 : ((gsA.length : Int)).toNat = gsA.length :=
    Int.toNat_natCast _
  have htoNat2 : ((gsA.length : Int) + 1 + (gsM.length : Int)).toNat
      = gsA.length + 1 + gsM.length := by omega
  have hwalk1 : walkSiblings pl.nodes (X.length + 1) gsA.length
      = X.length + 1 + (forestFlat gsA).length := by
    have h := walkSiblings_forest_all (X ++ [n0]) gsA
      (ra :: (forestFlat gsM ++ (rb :: W))) gsA.length hwfA rfl
    rw [show (X ++ [n0])
        ++ (forestFlat gsA ++ (ra :: (forestFlat gsM ++ (rb :: W))))
        = pl.nodes from by rw [hpl]; simp [List.append_assoc],
      show (X ++ [n0]).length = X.length + 1 from by simp] at h
    exact h
  have hwfTS : forestWfb (gsA ++ (.mk ra [] :: gsM)) = true := by
    rw [forestWfb_append, hwfA]
    simp [forestWfb, STree.wfb, hra, hwfM]
  have hFts : forestFlat (gsA ++ (.mk ra [] :: gsM))
      = forestFlat gsA ++ (ra :: forestFlat gsM) := by
    rw [forestFlat_append]
    simp [forestFlat, STree.flat]
  have hwalk2 : walkSiblings pl.nodes (X.length + 1)
      (gsA.length + 1 + gsM.length)
      = X.length + 1 + (forestFlat gsA).length + 1
        + (forestFlat gsM).length := by
    have h := walkSiblings_forest_all (X ++ [n0]) (gsA ++ (.mk ra [] :: gsM))
      (rb :: W) (gsA.length + 1 + gsM.length) hwfTS
      (by simp only [List.length_append, List.length_cons]; omega)
    rw [hFts] at h
    rw [show (X ++ [n0])
        ++ ((forestFlat gsA ++ (ra :: forestFlat gsM)) ++ (rb :: W))
        = pl.nodes from by rw [hpl]; simp [List.append_assoc],
      show (X ++ [n0]).length = X.length + 1 from by simp] at h
    rw [h]
    simp only [List.length_append, List.length_cons]
    omega
  have hget2 : getRec pl.nodes
      (X.length + 1 + (forestFlat gsA).length + 1 + (forestFlat gsM).length)
      = rb := by
    rw [show pl.nodes
        = (X ++ (n0 :: (forestFlat gsA ++ (ra :: forestFlat gsM))))
          ++ (rb :: W) from by rw [hpl]; simp [List.append_assoc],
      show X.length + 1 + (forestFlat gsA).length + 1
          + (forestFlat gsM).length
        = (X ++ (n0 :: (forestFlat gsA ++ (ra :: forestFlat gsM)))).length
        from by simp only [List.length_append, List.length_cons]; omega]
    exact getRec_append _ _ _
  have hmove1 : move pl.nodes (X.length + 1 + (forestFlat gsA).length)
      (X.length + 1 + (forestFlat gsA).length + 1
        + (forestFlat gsM).length + 1)
      = X ++ (n0 :: (forestFlat gsA
        ++ (forestFlat gsM ++ (rb :: (ra :: W))))) := by
    have hB : treeLen ([ra] ++ ((forestFlat gsM ++ [rb]) ++ W))
        = [ra].length := by
      simp [List.singleton_append, treeLen_cons_leaf ra _ hra]
    have h := move_block_right (X ++ n0 :: forestFlat gsA) [ra]
      (forestFlat gsM ++ [rb]) W hB (by simp)
    rw [show (X ++ n0 :: forestFlat gsA)
        ++ ([ra] ++ ((forestFlat gsM ++ [rb]) ++ W)) = pl.nodes from by
          rw [hpl]; simp [List.append_assoc],
      show (X ++ n0 :: forestFlat gsA).length
        = X.length + 1 + (forestFlat gsA).length from by
          simp only [List.length_append, List.length_cons]; omega,
      show X.length + 1 + (forestFlat gsA).length
          + ([ra].length + (forestFlat gsM ++ [rb]).length)
        = X.length + 1 + (forestFlat gsA).length + 1
          + (forestFlat gsM).length + 1 from by
          simp only [List.length_append, List.length_cons,
            List.length_singleton, List.length_nil]; omega] at h
    rw [h]
    simp [List.append_assoc]
  have hcB2 := hcB
  rw [show pl.nodes
      = (X ++ (n0 :: (forestFlat gsA ++ (ra :: forestFlat gsM))))
        ++ (rb :: W) from by rw [hpl]; simp [List.append_assoc]] at hcB2
  obtain ⟨hBpre, _⟩ := idCount_split_one rfl hcB2
  have hfreePre_B : ∀ m ∈ X ++ (n0 :: (forestFlat gsA ++ (ra :: forestFlat gsM))),
      m.identifier ≠ rb.identifier :=
    (idCount_eq_zero_iff _ _).mp hBpre
  have hidx2 : indexOfId
      (X ++ (n0 :: (forestFlat gsA ++ (forestFlat gsM ++ (rb :: (ra :: W))))))
      rb.identifier
      = some (X.length + 1 + (forestFlat gsA).length
        + (forestFlat gsM).length) := by
    have hfree : ∀ m ∈ X ++ (n0 :: (forestFlat gsA ++ forestFlat gsM)),
        m.identifier ≠ rb.identifier := by
      intro m hm
      refine hfreePre_B m ?_
      simp only [List.mem_append, List.mem_cons] at hm ⊢
      tauto
    have h := indexOfId_append_of_prefix_free
      (X ++ (n0 :: (forestFlat gsA ++ forestFlat gsM))) rb (ra :: W)
      rb.identifier hfree rfl
    rw [show (X ++ (n0 :: (forestFlat gsA ++ forestFlat gsM)))
        ++ (rb :: (ra :: W))
        = X ++ (n0 :: (forestFlat gsA
          ++ (forestFlat gsM ++ (rb :: (ra :: W))))) from by
          simp [List.append_assoc],
      show (X ++ (n0 :: (forestFlat gsA ++ forestFlat gsM))).length
        = X.length + 1 + (forestFlat gsA).length + (forestFlat gsM).length
        from by simp only [List.length_append, List.length_cons]; omega] at h
    exact h
  have hmove2 : move
      (X ++ (n0 :: (forestFlat gsA ++ (forestFlat gsM ++ (rb :: (ra :: W))))))
      (X.length + 1 + (forestFlat gsA).length + (forestFlat gsM).length)
      (X.length + 1 + (forestFlat gsA).length)
      = X ++ (n0 :: (forestFlat gsA
        ++ (rb :: (forestFlat gsM ++ (ra :: W))))) := by
    have hB : treeLen ([rb] ++ (ra :: W)) = [rb].length := by
      simp [List.singleton_append, treeLen_cons_leaf rb _ hrb]
    have h := move_block_left (X ++ n0 :: forestFlat gsA) (forestFlat gsM)
      [rb] (ra :: W) hB
    rw [show (X ++ n0 :: forestFlat gsA)
        ++ (forestFlat gsM ++ ([rb] ++ (ra :: W)))
        = X ++ (n0 :: (forestFlat gsA
          ++ (forestFlat gsM ++ (rb :: (ra :: W))))) from by
          simp [List.append_assoc],
      show (X ++ n0 :: forestFlat gsA).length + (forestFlat gsM).length
        = X.length + 1 + (forestFlat gsA).length + (forestFlat gsM).length
        from by simp only [List.length_append, List.length_cons]; omega,
      show (X ++ n0 :: forestFlat gsA).length
        = X.length + 1 + (forestFlat gsA).length from by
          simp only [List.length_append, List.length_cons]; omega] at h
    rw [h]
    simp [List.append_assoc]
  simp only [TreeReference.swapChildren, hidx, hif, if_false, hmin, hmax,
    htoNat1, htoNat2, hwalk1, hwalk2, hget2, hmove1, hidx2, hmove2]

/-- Concrete pool refuting C4's self-inverse clause: parent 0 with two
children that THEMSELVES have one child each — 0(1(2), 3(4)). -/
def c4pool : TreePool :=
  ⟨[⟨0, 1, 2, 0, false⟩, ⟨1, 1, 1, 0, false⟩, ⟨2, 1, 0, 0, false⟩,
    ⟨3, 1, 1, 0, false⟩, ⟨4, 1, 0, 0, false⟩], 5, -1⟩

/-- C4 counterexample: the first move's destination is `secondChild->next()`
— the position right AFTER the second child's header, not after its
subtree's end — so with nested children the blocks interleave and
`swapChildren(0, 1)` applied twice yields layout `[0, 4, 3, 1, 2]`, not the
original `[0, 1, 2, 3, 4]`: the operation is not self-inverse. -/
theorem claim_C4_counterexample :
    poolIds (TreeReference.swapChildren
        (TreeReference.swapChildren c4pool 0 0 1) 0 0 1).nodes
      = [0, 4, 3, 1, 2] ∧
    TreeReference.swapChildren
        (TreeReference.swapChildren c4pool 0 0 1) 0 0 1 ≠ c4pool := by
  exact ⟨by decide, by decide⟩

/-- C4 (amended): `swapChildren(i, i)` is a no-op, the call is symmetric in
its two indices, and on two LEAF children (single-record subtrees, the case
where "after the header" and "after the subtree's end" coincide) it
exchanges the two records and applying it twice restores the pool. -/
theorem claim_C4_amended :
    (∀ (pl : TreePool) (s i j : Int), i = j →
      TreeReference.swapChildren pl s i j = pl) ∧
    (∀ (pl : TreePool) (s i j : Int),
      TreeReference.swapChildren pl s i j
        = TreeReference.swapChildren pl s j i) ∧
    (∀ (pl : TreePool) (X W : List TreeNode) (n0 ra rb : TreeNode)
      (gsA gsM : List STree),
      pl.nodes = X ++ (n0 :: (forestFlat gsA
        ++ (ra :: (forestFlat gsM ++ (rb :: W))))) →
      forestWfb gsA = true → forestWfb gsM = true →
      ra.numberOfChildren = 0 → rb.numberOfChildren = 0 →
      idCount pl.nodes n0.identifier = 1 →
      idCount pl.nodes ra.identifier = 1 →
      idCount pl.nodes rb.identifier = 1 →
      TreeReference.swapChildren pl n0.identifier (gsA.length : Int)
          ((gsA.length : Int) + 1 + (gsM.length : Int))
        = { pl with nodes := X ++ (n0 :: (forestFlat gsA
            ++ (rb :: (forestFlat gsM ++ (ra :: W))))) } ∧
      TreeReference.swapChildren
          (TreeReference.swapChildren pl n0.identifier (gsA.length : Int)
            ((gsA.length : Int) + 1 + (gsM.length : Int)))
          n0.identifier (gsA.length : Int)
          ((gsA.length : Int) + 1 + (gsM.length : Int))
        = pl) := by
  refine ⟨?_, ?_, ?_⟩
  · intro pl s i j hij
    subst hij
    cases h : indexOfId pl.nodes s with
    | none => simp [TreeReference.swapChildren, h]
    | some k => simp [TreeReference.swapChildren, h]
  · intro pl s i j
    simp only [TreeReference.swapChildren]
    cases h : indexOfId pl.nodes s with
    | none => rfl
    | some k =>
      by_cases hij : i = j
      · subst hij
        rfl
      · have hji : ¬ (j = i) := fun h2 => hij h2.symm
        simp only [if_neg hij, if_neg hji, min_comm i j, max_comm i j]
  · intro pl X W n0 ra rb gsA gsM hpl hwfA hwfM hra hrb hcS hcA hcB
    have h1 := swapChildren_leaf_swap pl X W n0 ra rb gsA gsM hpl hwfA hwfM
      hra hrb hcS hcB
    have hcS2 := hcS
    rw [hpl] at hcS2
    have hcA2 := hcA
    rw [hpl] at hcA2
    have h2 := swapChildren_leaf_swap
      { pl with nodes := X ++ (n0 :: (forestFlat gsA
        ++ (rb :: (forestFlat gsM ++ (ra :: W))))) }
      X W n0 rb ra gsA gsM rfl hwfA hwfM hrb hra
      ((idCount_swap_blocks X (forestFlat gsA) (forestFlat gsM) W n0 ra rb
        n0.identifier).trans hcS2)
      ((idCount_swap_blocks X (forestFlat gsA) (forestFlat gsM) W n0 ra rb
        ra.identifier).trans hcA2)
    refine ⟨h1, ?_⟩
    rw [h1, h2, show X ++ (n0 :: (forestFlat gsA
      ++ (ra :: (forestFlat gsM ++ (rb :: W))))) = pl.nodes from hpl.symm]

/-- Concrete pool for the C4 witness: parent 0 with two leaf children. -/
def c4wpool : TreePool :=
  ⟨[⟨0, 1, 2, 0, false⟩, ⟨1, 1, 0, 0, false⟩, ⟨2, 1, 0, 0, false⟩], 3, -1⟩

/-- C4 witness: at a parent with two leaf children, `swapChildren(i, i)` is
a no-op, the call is index-symmetric, one swap exchanges the two leaves and
a second swap restores the pool. -/
theorem claim_C4_witness :
    TreeReference.swapChildren c4wpool 0 0 0 = c4wpool ∧
    TreeReference.swapChildren c4wpool 0 1 0
      = TreeReference.swapChildren c4wpool 0 0 1 ∧
    TreeReference.swapChildren c4wpool 0 0 1
      = ⟨[⟨0, 1, 2, 0, false⟩, ⟨2, 1, 0, 0, false⟩, ⟨1, 1, 0, 0, false⟩],
          3, -1⟩ ∧
    TreeReference.swapChildren
        (TreeReference.swapChildren c4wpool 0 0 1) 0 0 1 = c4wpool := by
  have h3 := claim_C4_amended.2.2 c4wpool [] [] ⟨0, 1, 2, 0, false⟩
    ⟨1, 1, 0, 0, false⟩ ⟨2, 1, 0, 0, false⟩ [] []
    (by simp [c4wpool, forestFlat]) (by decide) (by decide) (by decide)
    (by decide) (by decide) (by decide) (by decide)
  refine ⟨claim_C4_amended.1 c4wpool 0 0 0 rfl,
    claim_C4_amended.2.1 c4wpool 0 1 0, ?_, ?_⟩
  · have h := h3.1
    simpa [c4wpool, forestFlat] using h
  · have h := h3.2
    simpa using h
